import Mathlib

/-!
The include inliner of `src/main.cpp` (cpp-preprocessor).

A shallow embedding of `ProcessFile` and `Preprocess` and the properties of
their specification.

Text (file contents, lines, path names, messages) is a list of characters.
The filesystem is the environment of the program: `std::filesystem` and the
file streams are library code, so what they answer is a parameter of the
model (`FileSystem`).  The output stream and `std::cout` are components of
the state threaded through the run.
-/

namespace CppPreprocessor

/-! ## Text and paths -/

/-- A `std::string`. -/
abbrev Text := List Char

/-- A `fs::path`, by its pathname string (`path::string()`).  The paths the
program compares (`std::find` over `processed_files`) are results of
`fs::canonical`, which are normalised, so that equality of paths is equality
of their pathname strings. -/
abbrev Path := List Char

/-- The filesystem seen by one run, and the lexical path operations of
`std::filesystem`.

* `canonical p` is `fs::canonical(p)`; `none` when the call throws
  `filesystem_error` (the path names nothing).
* `pathExists p` is `fs::exists(p)`.
* `openRead p` is `std::ifstream input(p)`: `none` when the stream fails to
  open, otherwise the characters the stream delivers.
* `createOutput p` is `std::ofstream output(p)`: whether the stream opened.
* `join p s` is `p / s`, `parent_path p` is `p.parent_path()`.

The files read during a run are taken not to change during it (the output
file is not one of the files read). -/
structure FileSystem where
  canonical : Path → Option Path
  pathExists : Path → Bool
  openRead : Path → Option Text
  createOutput : Path → Bool
  join : Path → Text → Path
  parent_path : Path → Path

/-! ## Reading lines: `std::getline` -/

/-- The lines `while (std::getline(input, line))` delivers for a stream
holding `content`, with the characters of the line being read accumulated in
`cur`: a line ends at `'\n'` (which is dropped) or at the end of the stream;
at the end of the stream a line is delivered only when at least one
character was extracted for it. -/
def getlinesAux : Text → Text → List Text
  | cur, [] => if cur = [] then [] else [cur]
  | cur, c :: rest =>
    if c = '\n' then cur :: getlinesAux [] rest
    else getlinesAux (cur ++ [c]) rest

/-- The lines of a file, as the `getline` loop of `ProcessFile` sees them. -/
def getlines (content : Text) : List Text := getlinesAux [] content

/-! ## Directive recognition: `include_regex` with `std::regex_match` -/

/-- The class `\s` of `std::regex` over `char` in the "C" locale. -/
def isSpace (c : Char) : Bool :=
  c = ' ' || c = '\t' || c = '\n' || c = '\x0b' || c = '\x0c' || c = '\r'

/-- The class `[^>"]`. -/
def isNameChar (c : Char) : Bool := !(c = '>' || c = '"')

/-- The class `[<"]`. -/
def isOpenDelim (c : Char) : Bool := c = '<' || c = '"'

/-- The class `[>"]`. -/
def isCloseDelim (c : Char) : Bool := c = '>' || c = '"'

/-- Strip the literal `pre` from the front of `s`. -/
def stripLiteral : Text → Text → Option Text
  | [], s => some s
  | _ :: _, [] => none
  | p :: ps, c :: cs => if p = c then stripLiteral ps cs else none

/-- The result of `std::regex_match(line, match, include_regex)` for
`\s*#\s*include\s*([<"]([^>"]*)[>"])\s*`: `none` when the whole line does not
match, otherwise `(is_local_include, include_file)` with
`is_local_include = (match[1].str()[0] == '"')` and
`include_file = match[2]`.

Every starred class of the pattern is followed by an atom disjoint from it
(`\s*` by `#`, `i`, `[<"]` or the end of the line, `[^>"]*` by `[>"]`), so
the only way to match is to take each star maximally, which is what the
scan below does. -/
def include_regex_match (line : Text) : Option (Bool × Text) :=
  match line.dropWhile isSpace with
  | '#' :: r1 =>
    match stripLiteral "include".toList (r1.dropWhile isSpace) with
    | some r2 =>
      match r2.dropWhile isSpace with
      | o :: r3 =>
        if isOpenDelim o then
          match r3.dropWhile isNameChar with
          | c :: r4 =>
            if isCloseDelim c && r4.dropWhile isSpace = [] then
              some (o = '"', r3.takeWhile isNameChar)
            else none
          | [] => none
        else none
      | [] => none
    | none => none
  | _ => none

/-! ## The state of a run -/

/-- What a call produced: it returned a `bool`, or an exception left it
(`fs::canonical` throwing). -/
inductive Outcome where
  | returned (b : Bool)
  | threw
  deriving DecidableEq

/-- The mutable objects `ProcessFile` works on: the characters written to
`output`, the vector `processed_files`, and the lines written to
`std::cout`. -/
structure State where
  output : Text
  processed_files : List Path
  diagnostics : List Text
  deriving DecidableEq

/-- The value of an `int` after arithmetic, in two's complement (the
increment of `line_number` stays in range for files of fewer than `2^31`
lines). -/
def wrapInt32 (x : Int) : Int := (x + 2147483648) % 4294967296 - 2147483648

/-- The decimal digits `operator<<` prints for an `int`. -/
def intToText (x : Int) : Text :=
  match x with
  | Int.ofNat n => (Nat.toDigits 10 n)
  | Int.negSucc n => '-' :: Nat.toDigits 10 (n + 1)

/-- The line `PrintError` writes to `std::cout` (without the `std::endl`). -/
def diagnostic (include_file parent_file : Text) (line_number : Int) : Text :=
  "unknown include file ".toList ++ include_file ++ " at file ".toList ++ parent_file
    ++ " at line ".toList ++ intToText line_number

/-- The effect of `PrintError`: one line more on `std::cout`. -/
def PrintError (st : State) (include_file parent_file : Text) (line_number : Int) : State :=
  { st with diagnostics := st.diagnostics ++ [diagnostic include_file parent_file line_number] }

/-- The statement `output << line << '\n'`. -/
def emitLine (st : State) (line : Text) : State :=
  { st with output := st.output ++ line ++ ['\n'] }

/-! ## Resolution of an include (lines 45-63 of `ProcessFile`) -/

/-- The loop over `include_directories`: the first `dir / include_file` that
exists. -/
def searchDirectories (fs : FileSystem) (include_file : Text) : List Path → Option Path
  | [] => none
  | dir :: rest =>
    if fs.pathExists (fs.join dir include_file) then some (fs.join dir include_file)
    else searchDirectories fs include_file rest

/-- The value of `include_path` when `found` is true after lines 45-63, and
`none` when `found` is false. -/
def resolveInclude (fs : FileSystem) (include_directories : List Path) (current_dir : Path)
    (is_local_include : Bool) (include_file : Text) : Option Path :=
  if is_local_include && fs.pathExists (fs.join current_dir include_file) then
    some (fs.join current_dir include_file)
  else searchDirectories fs include_file include_directories

/-! ## `ProcessFile` and `Preprocess` -/

/-- The `while (std::getline(input, line))` loop of `ProcessFile` over the
lines still to be read, with `line_number` the counter before the next
increment and `recurse` the recursive call of `ProcessFile` (with
`output`, `include_directories` and `processed_files` passed along).
`none` stands for a recursive call that did not come back. -/
def scanLines (fs : FileSystem) (include_directories : List Path)
    (recurse : Path → Path → State → Option (Outcome × State))
    (file_path current_dir : Path) : List Text → Int → State → Option (Outcome × State)
  | [], _, st => some (Outcome.returned true, st)
  | line :: rest, line_number, st =>
    match include_regex_match line with
    | some (is_local_include, include_file) =>
      match resolveInclude fs include_directories current_dir is_local_include include_file with
      | some include_path =>
        match recurse include_path (fs.parent_path include_path) st with
        | none => none
        | some (Outcome.returned true, st1) =>
          scanLines fs include_directories recurse file_path current_dir rest
            (wrapInt32 (line_number + 1)) st1
        | some (Outcome.returned false, st1) => some (Outcome.returned false, st1)
        | some (Outcome.threw, st1) => some (Outcome.threw, st1)
      | none =>
        some (Outcome.returned false,
          PrintError st include_file file_path (wrapInt32 (line_number + 1)))
    | none =>
      scanLines fs include_directories recurse file_path current_dir rest
        (wrapInt32 (line_number + 1)) (emitLine st line)

/-- The function `ProcessFile`, with a bound `fuel` on the depth of the
recursion; `none` when the bound is reached.  The second call of
`fs::canonical` (line 27) gives what the first gave. -/
def ProcessFile (fs : FileSystem) (include_directories : List Path) :
    Nat → Path → Path → State → Option (Outcome × State)
  | 0, _, _, _ => none
  | fuel + 1, file_path, current_dir, st =>
    match fs.canonical file_path with
    | none => some (Outcome.threw, st)
    | some canonical_path =>
      if canonical_path ∈ st.processed_files then some (Outcome.returned true, st)
      else
        let st1 := { st with processed_files := st.processed_files ++ [canonical_path] }
        match fs.openRead file_path with
        | none => some (Outcome.returned false, st1)
        | some content =>
          scanLines fs include_directories (ProcessFile fs include_directories fuel)
            file_path current_dir (getlines content) 0 st1

/-- The function `Preprocess`: the output stream starts empty, `processed_files` starts
empty; nothing has been written to `std::cout`. -/
def Preprocess (fs : FileSystem) (fuel : Nat) (input_path output_path : Path)
    (include_directories : List Path) : Option (Outcome × State) :=
  if fs.createOutput output_path then
    ProcessFile fs include_directories fuel input_path (fs.parent_path input_path)
      { output := [], processed_files := [], diagnostics := [] }
  else some (Outcome.returned false, { output := [], processed_files := [], diagnostics := [] })

/-! ## The expansion, as the specification words it -/

/-- The text of a list of output lines: each line followed by `'\n'`,
nothing between them. -/
def renderLines : List Text → Text
  | [] => []
  | line :: rest => line ++ '\n' :: renderLines rest

/-- What is being expanded: a file (with the current directory of its
expansion), or the remaining lines of a file being scanned. -/
inductive Target where
  | file (file_path current_dir : Path)
  | lines (current_dir : Path) (ls : List Text)

/-- The relation `Expands fs dirs t V out V'`: with Visited Set `V` at the start, the
expansion of `t` is the list of lines `out`, and the Visited Set is `V'`
afterwards.

* a file whose canonical path is already visited expands to nothing;
* a file not yet visited is entered into the Visited Set and expands to the
  expansion of its lines;
* a plain line expands to itself;
* an include directive expands to the expansion of its resolved target,
  whose current directory is the directory containing it; the lines after
  it follow, depth first. -/
inductive Expands (fs : FileSystem) (dirs : List Path) :
    Target → List Path → List Text → List Path → Prop where
  | visited {file_path current_dir c V} :
      fs.canonical file_path = some c → c ∈ V →
      Expands fs dirs (Target.file file_path current_dir) V [] V
  | fresh {file_path current_dir c V content out V'} :
      fs.canonical file_path = some c → c ∉ V →
      fs.openRead file_path = some content →
      Expands fs dirs (Target.lines current_dir (getlines content)) (V ++ [c]) out V' →
      Expands fs dirs (Target.file file_path current_dir) V out V'
  | done {current_dir V} :
      Expands fs dirs (Target.lines current_dir []) V [] V
  | plain {current_dir line rest V out V'} :
      include_regex_match line = none →
      Expands fs dirs (Target.lines current_dir rest) V out V' →
      Expands fs dirs (Target.lines current_dir (line :: rest)) V (line :: out) V'
  | directive {current_dir line rest is_local name target V out₁ V₁ out₂ V₂} :
      include_regex_match line = some (is_local, name) →
      resolveInclude fs dirs current_dir is_local name = some target →
      Expands fs dirs (Target.file target (fs.parent_path target)) V out₁ V₁ →
      Expands fs dirs (Target.lines current_dir rest) V₁ out₂ V₂ →
      Expands fs dirs (Target.lines current_dir (line :: rest)) V (out₁ ++ out₂) V₂

/-- An unresolved include directive, where it stands. -/
structure Failure where
  include_file : Text
  parent_file : Path
  line_index : Nat
  deriving DecidableEq

/-- The relation `HaltsAt fs dirs file_path current_dir V out e V'`: with Visited Set `V`
at the start, the depth-first expansion of the file reaches the unresolved
include directive `e`, and `out` is the expansion of everything before it.
The directive is a line of the file itself (the lines `pre` before it
expanded), at the 1-based index `pre.length + 1`, or it is reached inside the
target of a resolved directive of the file. -/
inductive HaltsAt (fs : FileSystem) (dirs : List Path) :
    Path → Path → List Path → List Text → Failure → List Path → Prop where
  | here {file_path current_dir c V content pre line post out V₁ is_local name} :
      fs.canonical file_path = some c → c ∉ V →
      fs.openRead file_path = some content →
      getlines content = pre ++ line :: post →
      Expands fs dirs (Target.lines current_dir pre) (V ++ [c]) out V₁ →
      include_regex_match line = some (is_local, name) →
      resolveInclude fs dirs current_dir is_local name = none →
      HaltsAt fs dirs file_path current_dir V out ⟨name, file_path, pre.length + 1⟩ V₁
  | inside {file_path current_dir c V content pre line post out V₁ is_local name target
      out₂ e V₂} :
      fs.canonical file_path = some c → c ∉ V →
      fs.openRead file_path = some content →
      getlines content = pre ++ line :: post →
      Expands fs dirs (Target.lines current_dir pre) (V ++ [c]) out V₁ →
      include_regex_match line = some (is_local, name) →
      resolveInclude fs dirs current_dir is_local name = some target →
      HaltsAt fs dirs target (fs.parent_path target) V₁ out₂ e V₂ →
      HaltsAt fs dirs file_path current_dir V (out ++ out₂) e V₂

/-- The value of the counter `line_number` after `n` more increments. -/
def advance (line_number : Int) : Nat → Int
  | 0 => line_number
  | n + 1 => advance (wrapInt32 (line_number + 1)) n

/-- The content of a file with its last line terminated: unchanged when it
is empty or ends in `'\n'`, with one `'\n'` added otherwise. -/
def terminated (content : Text) : Text :=
  if content = [] ∨ content.getLast? = some '\n' then content else content ++ ['\n']

/-- How many paths of `known` are not in the Visited Set `V`: the measure
that bounds the depth of the recursion. -/
def unvisited (known V : List Path) : Nat :=
  known.countP (fun p => decide (p ∉ V))

/-! ## Concrete filesystems -/

/-- The path `p / s` on pathname strings: `s` itself when it is absolute or `p` is
empty, otherwise `p`, a separator unless `p` ends in one, and `s`. -/
def lexicalJoin (p : Path) (s : Text) : Path :=
  match s with
  | '/' :: _ => s
  | _ => if p = [] then s else if p.getLast? = some '/' then p ++ s else p ++ '/' :: s

/-- The path `p.parent_path()` on pathname strings: `p` without its last
component and the separators before it; the root directory `/` for a
component directly under the root; `p` itself when it has no component
besides the root (`/`, or the empty path). -/
def lexicalParent (p : Path) : Path :=
  let through := p.reverse.dropWhile (fun c => c != '/')
  let stripped := through.dropWhile (fun c => c == '/')
  if stripped = [] then
    if p.all (fun c => c == '/') then p else through.reverse.take 1
  else stripped.reverse

/-- A filesystem given by a table of regular files: pathname, canonical
path, content.  Exactly the listed pathnames exist and open. -/
def tableFS (table : List (Path × Path × Text)) : FileSystem where
  canonical p := (table.lookup p).map Prod.fst
  pathExists p := (table.lookup p).isSome
  openRead p := (table.lookup p).map Prod.snd
  createOutput _ := true
  join := lexicalJoin
  parent_path := lexicalParent

/-- The content `Test` writes to `sources/a.cpp`. -/
def test_a_cpp : Text :=
  ("// this comment before include\n" ++
   "#include \"dir1/b.h\"\n" ++
   "// text between b.h and c.h\n" ++
   "#include \"dir1/d.h\"\n" ++
   "\n" ++
   "int SayHello() \x7b\n" ++
   "    cout << \"hello, world!\" << endl;\n" ++
   "#   include<dummy.txt>\n" ++
   "\x7d\n").toList

/-- The content `Test` writes to `sources/dir1/b.h`. -/
def test_b_h : Text :=
  ("// text from b.h before include\n" ++
   "#include \"subdir/c.h\"\n" ++
   "// text from b.h after include").toList

/-- The content `Test` writes to `sources/dir1/subdir/c.h`. -/
def test_c_h : Text :=
  ("// text from c.h before include\n" ++
   "#include <std1.h>\n" ++
   "// text from c.h after include\n").toList

/-- The content `Test` writes to `sources/dir1/d.h`. -/
def test_d_h : Text :=
  ("// text from d.h before include\n" ++
   "#include \"lib/std2.h\"\n" ++
   "// text from d.h after include\n").toList

/-- The files `Test` writes under `sources/`; their canonical paths are
taken under a working directory `/work`. -/
def testFS : FileSystem :=
  tableFS
    [ ("sources/a.cpp".toList, "/work/sources/a.cpp".toList, test_a_cpp),
      ("sources/dir1/b.h".toList, "/work/sources/dir1/b.h".toList, test_b_h),
      ("sources/dir1/subdir/c.h".toList, "/work/sources/dir1/subdir/c.h".toList, test_c_h),
      ("sources/dir1/d.h".toList, "/work/sources/dir1/d.h".toList, test_d_h),
      ("sources/include1/std1.h".toList, "/work/sources/include1/std1.h".toList,
        "// std1\n".toList),
      ("sources/include2/lib/std2.h".toList, "/work/sources/include2/lib/std2.h".toList,
        "// std2\n".toList) ]

/-- The search directories `Test` passes. -/
def testDirs : List Path := ["sources/include1".toList, "sources/include2".toList]

/-- The content `Test` expects in `sources/a.in`. -/
def testExpected : Text :=
  ("// this comment before include\n" ++
   "// text from b.h before include\n" ++
   "// text from c.h before include\n" ++
   "// std1\n" ++
   "// text from c.h after include\n" ++
   "// text from b.h after include\n" ++
   "// text between b.h and c.h\n" ++
   "// text from d.h before include\n" ++
   "// std2\n" ++
   "// text from d.h after include\n" ++
   "\n" ++
   "int SayHello() \x7b\n" ++
   "    cout << \"hello, world!\" << endl;\n").toList

/-- The lines of `testExpected`. -/
def testExpectedLines : List Text :=
  [ "// this comment before include".toList,
    "// text from b.h before include".toList,
    "// text from c.h before include".toList,
    "// std1".toList,
    "// text from c.h after include".toList,
    "// text from b.h after include".toList,
    "// text between b.h and c.h".toList,
    "// text from d.h before include".toList,
    "// std2".toList,
    "// text from d.h after include".toList,
    [],
    "int SayHello() \x7b".toList,
    "    cout << \"hello, world!\" << endl;".toList ]

/-- Two files that include each other, and one that includes itself;
`./a.h` is a second spelling of `a.h`. -/
def cycleFS : FileSystem :=
  tableFS
    [ ("a.h".toList, "/a.h".toList, "#include \"b.h\"\nA\n".toList),
      ("./a.h".toList, "/a.h".toList, "#include \"b.h\"\nA\n".toList),
      ("b.h".toList, "/b.h".toList, "#include \"./a.h\"\nB\n".toList),
      ("self.h".toList, "/self.h".toList, "S\n#include \"self.h\"\nT\n".toList) ]

/-- A header `x.h` beside the including files and another `x.h` in the
search directory `inc`; `q.cpp` includes it quoted, `r.cpp` with angle
brackets; `plain.txt` has no directive and no final newline. -/
def shadowFS : FileSystem :=
  tableFS
    [ ("src/q.cpp".toList, "/src/q.cpp".toList, "#include \"x.h\"\nQ\n".toList),
      ("src/r.cpp".toList, "/src/r.cpp".toList, "R\n#include <x.h>\nS\n".toList),
      ("src/x.h".toList, "/src/x.h".toList, "local\n".toList),
      ("inc/x.h".toList, "/inc/x.h".toList, "global\n".toList),
      ("src/plain.txt".toList, "/src/plain.txt".toList, "one\ntwo".toList) ]

/-! ## The files entered by a run -/

/-- The lines of a file that are not include directives. -/
def plainLines (content : Text) : List Text :=
  (getlines content).filter (fun l => (include_regex_match l).isNone)

/-- A file entered during a run: the path under which it was processed, its
canonical path (the entry of the Visited Set), and the content read. -/
structure EnteredFile where
  file_path : Path
  canonical_path : Path
  content : Text

/-- The non-directive lines of a list of files, file after file, each file
counted once. -/
def plainLinesOf : List EnteredFile → List Text
  | [] => []
  | e :: rest => plainLines e.content ++ plainLinesOf rest

/-- A header included along two routes and a file that includes itself:
`top.h` includes `l.h`, `r.h` and `top.h`; `l.h` and `r.h` both include
`base.h`. -/
def diamondFS : FileSystem :=
  tableFS
    [ ("top.h".toList, "/top.h".toList,
        "T1\n#include \"l.h\"\n#include \"r.h\"\n#include \"top.h\"\nT2\n".toList),
      ("l.h".toList, "/l.h".toList, "#include \"base.h\"\nL\n".toList),
      ("r.h".toList, "/r.h".toList, "#include \"base.h\"\nR\n".toList),
      ("base.h".toList, "/base.h".toList, "B\n".toList) ]

/-! ## The grammar of a directive line -/

/-- A line of the shape of the directive grammar: `w1`, `#`, `w2`,
`include`, `w3`, the opening delimiter `o`, the name `n`, the closing
delimiter `c`, and the rest of the line `t`. -/
def includeLine (w1 w2 w3 : Text) (o : Char) (n : Text) (c : Char) (t : Text) : Text :=
  w1 ++ '#' :: (w2 ++ ("include".toList ++ (w3 ++ o :: (n ++ c :: t))))

/-- A string of whitespace characters. -/
def isWhitespace (w : Text) : Prop := ∀ x ∈ w, isSpace x = true

/-- A search directory `inc` with `x.h`, and `src/m.cpp` whose first line
opens the name with `<` and closes it with `"`. -/
def mismatchFS : FileSystem :=
  tableFS
    [ ("src/m.cpp".toList, "/src/m.cpp".toList, "#include <x.h\"\nM\n".toList),
      ("inc/x.h".toList, "/inc/x.h".toList, "global\n".toList) ]

/-- A root file `n.cpp` whose only line is `#include <#include <a.h>`, and
the header `a.h`. -/
def nestedFS : FileSystem :=
  tableFS
    [ ("n.cpp".toList, "/n.cpp".toList, "#include <#include <a.h>\n".toList),
      ("a.h".toList, "/a.h".toList, "A\n".toList) ]

/-! ## The calls made during a call -/

theorem renderLines_append (a b : List Text) :
    renderLines (a ++ b) = renderLines a ++ renderLines b := by
  induction a with
  | nil => rfl
  | cons l rest ih => simp [renderLines, ih]

theorem wrapInt32_of_bounds {x : Int} (h0 : 0 ≤ x) (h1 : x < 2147483648) : wrapInt32 x = x := by
  unfold wrapInt32
  omega

theorem advance_of_bounds : ∀ (n : Nat) (k : Int), 0 ≤ k → k + n < 2147483648 →
    advance k n = k + n := by
  intro n
  induction n with
  | zero => intro k _ _; simp [advance]
  | succ n ih =>
    intro k h0 h1
    have hw : wrapInt32 (k + 1) = k + 1 := wrapInt32_of_bounds (by omega) (by omega)
    rw [advance, hw, ih (k + 1) (by omega) (by push_cast at h1 ⊢; omega)]
    push_cast
    omega

/-- The loop gives the same result with a recursive call that gives the
same results wherever the first one came back. -/
theorem scanLines_mono {fs : FileSystem} {dirs : List Path}
    {r₁ r₂ : Path → Path → State → Option (Outcome × State)}
    (h : ∀ f cd st res, r₁ f cd st = some res → r₂ f cd st = some res)
    (fp cd : Path) : ∀ (ls : List Text) (k : Int) (st : State) (res : Outcome × State),
    scanLines fs dirs r₁ fp cd ls k st = some res →
    scanLines fs dirs r₂ fp cd ls k st = some res := by
  intro ls
  induction ls with
  | nil => intro k st res hres; simpa [scanLines] using hres
  | cons line rest ih =>
    intro k st res hres
    rw [scanLines] at hres ⊢
    cases hm : include_regex_match line with
    | none =>
      rw [hm] at hres
      exact ih _ _ _ hres
    | some p =>
      obtain ⟨is_local, name⟩ := p
      rw [hm] at hres
      dsimp only at hres ⊢
      cases hr : resolveInclude fs dirs cd is_local name with
      | none => rw [hr] at hres; exact hres
      | some target =>
        rw [hr] at hres
        dsimp only at hres ⊢
        cases h1 : r₁ target (fs.parent_path target) st with
        | none => rw [h1] at hres; simp at hres
        | some q =>
          rw [h1] at hres
          rw [h _ _ _ _ h1]
          obtain ⟨o, st1⟩ := q
          cases o with
          | threw => exact hres
          | returned b =>
            cases b with
            | false => exact hres
            | true => exact ih _ _ _ hres

/-- A result of `ProcessFile` stays the same with one more unit of fuel. -/
theorem ProcessFile_succ (fs : FileSystem) (dirs : List Path) :
    ∀ (n : Nat) (f cd : Path) (st : State) (res : Outcome × State),
    ProcessFile fs dirs n f cd st = some res → ProcessFile fs dirs (n + 1) f cd st = some res := by
  intro n
  induction n with
  | zero => intro f cd st res h; simp [ProcessFile] at h
  | succ n ih =>
    intro f cd st res h
    rw [ProcessFile] at h ⊢
    cases hc : fs.canonical f with
    | none => rw [hc] at h; exact h
    | some c =>
      rw [hc] at h
      dsimp only at h ⊢
      by_cases hv : c ∈ st.processed_files
      · rw [if_pos hv] at h ⊢; exact h
      · rw [if_neg hv] at h ⊢
        cases ho : fs.openRead f with
        | none => rw [ho] at h; exact h
        | some content =>
          rw [ho] at h
          exact scanLines_mono ih _ _ _ _ _ _ h

/-- A result of `ProcessFile` stays the same with more fuel. -/
theorem ProcessFile_mono (fs : FileSystem) (dirs : List Path) {n m : Nat} (hnm : n ≤ m)
    {f cd : Path} {st : State} {res : Outcome × State}
    (h : ProcessFile fs dirs n f cd st = some res) : ProcessFile fs dirs m f cd st = some res := by
  induction hnm with
  | refl => exact h
  | step _ ih => exact ProcessFile_succ fs dirs _ _ _ _ _ ih

/-! ## The code produces the expansion -/

/-- With enough fuel, `ProcessFile` returns true on a file that expands,
having appended the rendered expansion; and the loop gets through lines
that expand, whatever lines follow them. -/
theorem expands_complete {fs : FileSystem} {dirs : List Path} {t : Target} {V V' : List Path}
    {out : List Text} (h : Expands fs dirs t V out V') :
    ∃ n₀, ∀ fuel, n₀ ≤ fuel → ∀ st : State, st.processed_files = V →
      match t with
      | Target.file f cd =>
        ProcessFile fs dirs fuel f cd st =
          some (Outcome.returned true, ⟨st.output ++ renderLines out, V', st.diagnostics⟩)
      | Target.lines cd ls => ∀ (fp : Path) (k : Int) (rest : List Text),
        scanLines fs dirs (ProcessFile fs dirs fuel) fp cd (ls ++ rest) k st =
          scanLines fs dirs (ProcessFile fs dirs fuel) fp cd rest (advance k ls.length)
            ⟨st.output ++ renderLines out, V', st.diagnostics⟩ := by
  induction h with
  | @visited f cd c V hc hv =>
    refine ⟨1, fun fuel hfuel st hst => ?_⟩
    obtain ⟨m, rfl⟩ : ∃ m, fuel = m + 1 := ⟨fuel - 1, by omega⟩
    subst hst
    simp [ProcessFile, hc, hv, renderLines]
  | @fresh f cd c V content out V' hc hv ho _ ih =>
    obtain ⟨n₀, ih⟩ := ih
    refine ⟨n₀ + 1, fun fuel hfuel st hst => ?_⟩
    obtain ⟨m, rfl⟩ : ∃ m, fuel = m + 1 := ⟨fuel - 1, by omega⟩
    subst hst
    have := ih m (by omega) { st with processed_files := st.processed_files ++ [c] } rfl f 0 []
    simp only [List.append_nil] at this
    simp only [ProcessFile, hc, if_neg hv, ho]
    rw [this]
    simp [scanLines]
  | @done cd V =>
    refine ⟨0, fun fuel _ st hst => ?_⟩
    subst hst
    intro fp k rest
    simp [renderLines, advance]
  | @plain cd line rest V out V' hm _ ih =>
    obtain ⟨n₀, ih⟩ := ih
    refine ⟨n₀, fun fuel hfuel st hst => ?_⟩
    intro fp k r
    have := ih fuel hfuel (emitLine st line) (by simpa [emitLine] using hst) fp
      (wrapInt32 (k + 1)) r
    simp only [List.cons_append, List.length_cons, advance]
    rw [scanLines, hm]
    dsimp only
    rw [this]
    simp [emitLine, renderLines]
  | @directive cd line rest is_local name target V out₁ V₁ out₂ V₂ hm hr _ _ ih₁ ih₂ =>
    obtain ⟨n₁, ih₁⟩ := ih₁
    obtain ⟨n₂, ih₂⟩ := ih₂
    refine ⟨max n₁ n₂, fun fuel hfuel st hst => ?_⟩
    intro fp k r
    have h₁ := ih₁ fuel (by omega) st hst
    have h₂ := ih₂ fuel (by omega) ⟨st.output ++ renderLines out₁, V₁, st.diagnostics⟩ rfl fp
      (wrapInt32 (k + 1)) r
    dsimp only at h₁
    simp only [List.cons_append, List.length_cons, advance]
    rw [scanLines, hm]
    dsimp only
    rw [hr]
    dsimp only
    rw [h₁]
    dsimp only
    rw [h₂]
    simp [renderLines_append]

theorem advance_succ : ∀ (n : Nat) (k : Int),
    advance k (n + 1) = wrapInt32 (advance k n + 1) := by
  intro n
  induction n with
  | zero => intro k; simp [advance]
  | succ n ih => intro k; rw [advance, ih, advance]

/-- With enough fuel, `ProcessFile` returns false on a file whose expansion
reaches an unresolved directive, having appended the rendered expansion of
what precedes the directive and written the one diagnostic. -/
theorem haltsAt_complete {fs : FileSystem} {dirs : List Path} {f cd : Path} {V V' : List Path}
    {out : List Text} {e : Failure} (h : HaltsAt fs dirs f cd V out e V') :
    ∃ n₀, ∀ fuel, n₀ ≤ fuel → ∀ st : State, st.processed_files = V →
      ProcessFile fs dirs fuel f cd st =
        some (Outcome.returned false,
          ⟨st.output ++ renderLines out, V',
            st.diagnostics ++
              [diagnostic e.include_file e.parent_file (advance 0 e.line_index)]⟩) := by
  induction h with
  | @here f cd c V content pre line post out V₁ is_local name hc hv ho hl hpre hm hr =>
    obtain ⟨n₁, h₁⟩ := expands_complete hpre
    refine ⟨n₁ + 1, fun fuel hfuel st hst => ?_⟩
    obtain ⟨m, rfl⟩ : ∃ m, fuel = m + 1 := ⟨fuel - 1, by omega⟩
    subst hst
    have := h₁ m (by omega) { st with processed_files := st.processed_files ++ [c] } rfl f 0
      (line :: post)
    simp only [ProcessFile, hc, if_neg hv, ho, hl]
    rw [this, scanLines, hm]
    dsimp only
    rw [hr]
    simp [PrintError, advance_succ]
  | @inside f cd c V content pre line post out V₁ is_local name target out₂ e V₂ hc hv ho hl
      hpre hm hr _ ih =>
    obtain ⟨n₁, h₁⟩ := expands_complete hpre
    obtain ⟨n₂, ih⟩ := ih
    refine ⟨max n₁ n₂ + 1, fun fuel hfuel st hst => ?_⟩
    obtain ⟨m, rfl⟩ : ∃ m, fuel = m + 1 := ⟨fuel - 1, by omega⟩
    subst hst
    have := h₁ m (by omega) { st with processed_files := st.processed_files ++ [c] } rfl f 0
      (line :: post)
    have h₂ := ih m (by omega) ⟨st.output ++ renderLines out, V₁, st.diagnostics⟩ rfl
    simp only [ProcessFile, hc, if_neg hv, ho, hl]
    rw [this, scanLines, hm]
    dsimp only
    rw [hr]
    dsimp only
    rw [h₂]
    simp [renderLines_append]

/-! ## What the code produces is the expansion -/

/-- When the loop returns true, what it appended is the expansion of the
lines it read, provided the recursive call does the same for files. -/
theorem scanLines_sound {fs : FileSystem} {dirs : List Path}
    {r : Path → Path → State → Option (Outcome × State)}
    (hr : ∀ f cd st st', r f cd st = some (Outcome.returned true, st') →
      ∃ out, Expands fs dirs (Target.file f cd) st.processed_files out st'.processed_files ∧
        st'.output = st.output ++ renderLines out ∧ st'.diagnostics = st.diagnostics)
    (fp cd : Path) : ∀ (ls : List Text) (k : Int) (st st' : State),
    scanLines fs dirs r fp cd ls k st = some (Outcome.returned true, st') →
    ∃ out, Expands fs dirs (Target.lines cd ls) st.processed_files out st'.processed_files ∧
      st'.output = st.output ++ renderLines out ∧ st'.diagnostics = st.diagnostics := by
  intro ls
  induction ls with
  | nil =>
    intro k st st' h
    simp only [scanLines, Option.some.injEq, Prod.mk.injEq, true_and] at h
    subst h
    exact ⟨[], Expands.done, by simp [renderLines], rfl⟩
  | cons line rest ih =>
    intro k st st' h
    rw [scanLines] at h
    cases hm : include_regex_match line with
    | none =>
      rw [hm] at h
      obtain ⟨out, hex, hout, hd⟩ := ih _ _ _ h
      exact ⟨line :: out, Expands.plain hm hex, by simpa [emitLine, renderLines] using hout, hd⟩
    | some p =>
      obtain ⟨is_local, name⟩ := p
      rw [hm] at h
      dsimp only at h
      cases hres : resolveInclude fs dirs cd is_local name with
      | none => rw [hres] at h; simp at h
      | some target =>
        rw [hres] at h
        dsimp only at h
        cases h1 : r target (fs.parent_path target) st with
        | none => rw [h1] at h; simp at h
        | some q =>
          rw [h1] at h
          obtain ⟨o, st1⟩ := q
          cases o with
          | threw => simp at h
          | returned b =>
            cases b with
            | false => simp at h
            | true =>
              dsimp only at h
              obtain ⟨out₁, hex₁, hout₁, hd₁⟩ := hr _ _ _ _ h1
              obtain ⟨out₂, hex₂, hout₂, hd₂⟩ := ih _ _ _ h
              refine ⟨out₁ ++ out₂, Expands.directive hm hres hex₁ hex₂, ?_, ?_⟩
              · rw [hout₂, hout₁, renderLines_append, List.append_assoc]
              · rw [hd₂, hd₁]

/-- When `ProcessFile` returns true, what it appended is the expansion of
the file and it wrote no diagnostic. -/
theorem ProcessFile_sound (fs : FileSystem) (dirs : List Path) :
    ∀ (fuel : Nat) (f cd : Path) (st st' : State),
    ProcessFile fs dirs fuel f cd st = some (Outcome.returned true, st') →
    ∃ out, Expands fs dirs (Target.file f cd) st.processed_files out st'.processed_files ∧
      st'.output = st.output ++ renderLines out ∧ st'.diagnostics = st.diagnostics := by
  intro fuel
  induction fuel with
  | zero => intro f cd st st' h; simp [ProcessFile] at h
  | succ n ih =>
    intro f cd st st' h
    rw [ProcessFile] at h
    cases hc : fs.canonical f with
    | none => rw [hc] at h; simp at h
    | some c =>
      rw [hc] at h
      dsimp only at h
      by_cases hv : c ∈ st.processed_files
      · rw [if_pos hv] at h
        simp only [Option.some.injEq, Prod.mk.injEq, true_and] at h
        subst h
        exact ⟨[], Expands.visited hc hv, by simp [renderLines], rfl⟩
      · rw [if_neg hv] at h
        cases ho : fs.openRead f with
        | none => rw [ho] at h; simp at h
        | some content =>
          rw [ho] at h
          obtain ⟨out, hex, hout, hd⟩ := scanLines_sound ih f cd _ _ _ _ h
          exact ⟨out, Expands.fresh hc hv ho hex, hout, hd⟩

/-! ## The Visited Set grows, and the recursion is bounded -/

/-- The loop only appends to `processed_files` when the recursive call only
appends. -/
theorem scanLines_prefix {fs : FileSystem} {dirs : List Path}
    {r : Path → Path → State → Option (Outcome × State)}
    (hr : ∀ f cd st res, r f cd st = some res → st.processed_files <+: res.2.processed_files)
    (fp cd : Path) : ∀ (ls : List Text) (k : Int) (st : State) (res : Outcome × State),
    scanLines fs dirs r fp cd ls k st = some res →
    st.processed_files <+: res.2.processed_files := by
  intro ls
  induction ls with
  | nil =>
    intro k st res h
    simp only [scanLines, Option.some.injEq] at h
    subst h
    exact List.prefix_rfl
  | cons line rest ih =>
    intro k st res h
    rw [scanLines] at h
    cases hm : include_regex_match line with
    | none =>
      rw [hm] at h
      simpa [emitLine] using ih _ (emitLine st line) _ h
    | some p =>
      obtain ⟨is_local, name⟩ := p
      rw [hm] at h
      dsimp only at h
      cases hres : resolveInclude fs dirs cd is_local name with
      | none =>
        rw [hres] at h
        simp only [Option.some.injEq] at h
        subst h
        exact List.prefix_rfl
      | some target =>
        rw [hres] at h
        dsimp only at h
        cases h1 : r target (fs.parent_path target) st with
        | none => rw [h1] at h; simp at h
        | some q =>
          rw [h1] at h
          have hq := hr _ _ _ _ h1
          obtain ⟨o, st1⟩ := q
          cases o with
          | threw =>
            simp only [Option.some.injEq] at h
            subst h
            exact hq
          | returned b =>
            cases b with
            | false =>
              simp only [Option.some.injEq] at h
              subst h
              exact hq
            | true => exact hq.trans (ih _ _ _ h)

/-- When `ProcessFile` enters a file not yet visited, `processed_files` at
the end starts with the list at entry followed by the canonical path of the
file. -/
theorem ProcessFile_enters (fs : FileSystem) (dirs : List Path) :
    ∀ (fuel : Nat) (f cd : Path) (st : State) (res : Outcome × State),
    ProcessFile fs dirs fuel f cd st = some res →
    st.processed_files <+: res.2.processed_files ∧
      ∀ c, fs.canonical f = some c → c ∉ st.processed_files →
        st.processed_files ++ [c] <+: res.2.processed_files := by
  intro fuel
  induction fuel with
  | zero => intro f cd st res h; simp [ProcessFile] at h
  | succ n ih =>
    intro f cd st res h
    rw [ProcessFile] at h
    cases hc : fs.canonical f with
    | none =>
      rw [hc] at h
      simp only [Option.some.injEq] at h
      subst h
      exact ⟨List.prefix_rfl, fun c hc' => by simp at hc'⟩
    | some c =>
      rw [hc] at h
      dsimp only at h
      by_cases hv : c ∈ st.processed_files
      · rw [if_pos hv] at h
        simp only [Option.some.injEq] at h
        subst h
        refine ⟨List.prefix_rfl, fun c' hc' hv' => ?_⟩
        simp only [Option.some.injEq] at hc'
        subst hc'
        exact absurd hv hv'
      · rw [if_neg hv] at h
        have key : st.processed_files ++ [c] <+: res.2.processed_files := by
          cases ho : fs.openRead f with
          | none =>
            rw [ho] at h
            simp only [Option.some.injEq] at h
            subst h
            exact List.prefix_rfl
          | some content =>
            rw [ho] at h
            exact scanLines_prefix (fun f cd st res hres => (ih f cd st res hres).1) _ _ _ _ _ _ h
        refine ⟨(List.prefix_append _ _).trans key, fun c' hc' _ => ?_⟩
        simp only [Option.some.injEq] at hc'
        subst hc'
        exact key

theorem unvisited_mono (known : List Path) {V V' : List Path} (h : V <+: V') :
    unvisited known V' ≤ unvisited known V := by
  unfold unvisited
  apply List.countP_mono_left
  intro x _ hx
  simp only [decide_eq_true_eq] at hx ⊢
  exact fun hV => hx (h.subset hV)

theorem unvisited_lt (known : List Path) {V : List Path} {c : Path} (hc : c ∈ known)
    (hv : c ∉ V) : unvisited known (V ++ [c]) < unvisited known V := by
  unfold unvisited
  induction known with
  | nil => simp at hc
  | cons a rest ih =>
    rw [List.countP_cons, List.countP_cons]
    have hle : List.countP (fun p => decide (p ∉ V ++ [c])) rest
        ≤ List.countP (fun p => decide (p ∉ V)) rest := unvisited_mono rest (List.prefix_append V [c])
    by_cases hac : a = c
    · subst hac
      have e₁ : decide (a ∉ V ++ [a]) = false := by simp
      have e₂ : decide (a ∉ V) = true := by simp [hv]
      simp only [e₁, e₂, if_true, Bool.false_eq_true, if_false]
      omega
    · have hrest : c ∈ rest := by
        rcases List.mem_cons.mp hc with h | h
        · exact absurd h.symm hac
        · exact h
      have hlt := ih hrest
      have e : decide (a ∉ V ++ [c]) = decide (a ∉ V) := by simp [hac]
      simp only [e]
      omega

/-- The loop comes back when the recursive call comes back from every state
with fewer than `n` unvisited paths and only appends to `processed_files`. -/
theorem scanLines_returns {fs : FileSystem} {dirs : List Path} {known : List Path} {n : Nat}
    {r : Path → Path → State → Option (Outcome × State)}
    (hr : ∀ f cd st, unvisited known st.processed_files < n → ∃ res, r f cd st = some res)
    (hp : ∀ f cd st res, r f cd st = some res → st.processed_files <+: res.2.processed_files)
    (fp cd : Path) : ∀ (ls : List Text) (k : Int) (st : State),
    unvisited known st.processed_files < n →
    ∃ res, scanLines fs dirs r fp cd ls k st = some res := by
  intro ls
  induction ls with
  | nil => intro k st _; exact ⟨_, rfl⟩
  | cons line rest ih =>
    intro k st hst
    rw [scanLines]
    cases hm : include_regex_match line with
    | none => exact ih _ _ (by simpa [emitLine] using hst)
    | some p =>
      obtain ⟨is_local, name⟩ := p
      dsimp only
      cases hres : resolveInclude fs dirs cd is_local name with
      | none => exact ⟨_, rfl⟩
      | some target =>
        dsimp only
        obtain ⟨q, h1⟩ := hr target (fs.parent_path target) st hst
        have hq := hp _ _ _ _ h1
        rw [h1]
        obtain ⟨o, st1⟩ := q
        cases o with
        | threw => exact ⟨_, rfl⟩
        | returned b =>
          cases b with
          | false => exact ⟨_, rfl⟩
          | true => exact ih _ _ (lt_of_le_of_lt (unvisited_mono known hq) hst)

/-- The call of `ProcessFile` comes back when the fuel exceeds the number of canonical
paths not yet visited. -/
theorem ProcessFile_returns (fs : FileSystem) (dirs : List Path) (known : List Path)
    (hfin : ∀ p c, fs.canonical p = some c → c ∈ known) :
    ∀ (fuel : Nat) (f cd : Path) (st : State),
    unvisited known st.processed_files < fuel →
    ∃ res, ProcessFile fs dirs fuel f cd st = some res := by
  intro fuel
  induction fuel with
  | zero => intro f cd st h; omega
  | succ n ih =>
    intro f cd st hst
    rw [ProcessFile]
    cases hc : fs.canonical f with
    | none => exact ⟨_, rfl⟩
    | some c =>
      dsimp only
      by_cases hv : c ∈ st.processed_files
      · rw [if_pos hv]; exact ⟨_, rfl⟩
      · rw [if_neg hv]
        cases ho : fs.openRead f with
        | none => exact ⟨_, rfl⟩
        | some content =>
          dsimp only
          have hlt := unvisited_lt known (hfin f c hc) hv
          exact scanLines_returns ih
            (fun f cd st res hres => (ProcessFile_enters fs dirs n f cd st res hres).1)
            _ _ _ _ _ (by dsimp only; omega)

/-! ## Lines read and written back -/

theorem terminated_append {p rest : Text} (h : rest ≠ []) :
    terminated (p ++ rest) = p ++ terminated rest := by
  unfold terminated
  have h₁ : p ++ rest ≠ [] := by simp [h]
  have h₂ : (p ++ rest).getLast? = rest.getLast? := by
    obtain ⟨a, ha⟩ : ∃ a, rest.getLast? = some a := by
      cases hr : rest.getLast? with
      | none => exact absurd (List.getLast?_eq_none_iff.mp hr) h
      | some a => exact ⟨a, rfl⟩
    rw [List.getLast?_append, ha]
    rfl
  simp only [h₁, h, h₂, false_or]
  split <;> simp

/-- Writing back the lines `getline` delivers, each followed by `'\n'`, gives
the content with its last line terminated. -/
theorem renderLines_getlinesAux : ∀ (rest cur : Text), '\n' ∉ cur →
    renderLines (getlinesAux cur rest) = terminated (cur ++ rest) := by
  intro rest
  induction rest with
  | nil =>
    intro cur hcur
    by_cases hc : cur = []
    · subst hc
      simp [getlinesAux, renderLines, terminated]
    · have hl : cur.getLast? ≠ some '\n' := by
        intro hl
        exact hcur (List.mem_of_getLast?_eq_some hl)
      simp [getlinesAux, renderLines, terminated, hc, hl]
  | cons c rest ih =>
    intro cur hcur
    rw [getlinesAux]
    by_cases hc : c = '\n'
    · subst hc
      rw [if_pos rfl, renderLines, ih [] (by simp)]
      rw [List.nil_append]
      by_cases hr : rest = []
      · subst hr
        simp [terminated]
      · have : cur ++ '\n' :: rest = (cur ++ ['\n']) ++ rest := by simp
        rw [this, terminated_append hr]
        simp
    · rw [if_neg hc, ih (cur ++ [c]) (by simp [hcur, Ne.symm hc])]
      simp

theorem renderLines_getlines (content : Text) :
    renderLines (getlines content) = terminated content := by
  simpa [getlines] using renderLines_getlinesAux content [] (by simp)

/-- Lines none of which is a directive expand to themselves. -/
theorem expands_of_plain (fs : FileSystem) (dirs : List Path) (cd : Path) (V : List Path) :
    ∀ ls : List Text, (∀ l ∈ ls, include_regex_match l = none) →
    Expands fs dirs (Target.lines cd ls) V ls V := by
  intro ls
  induction ls with
  | nil => intro _; exact Expands.done
  | cons l rest ih =>
    intro h
    exact Expands.plain (h l (List.mem_cons_self _ _))
      (ih (fun x hx => h x (List.mem_cons_of_mem _ hx)))

/-- No line of an expansion is an include directive. -/
theorem expands_plain_lines {fs : FileSystem} {dirs : List Path} {t : Target} {V V' : List Path}
    {out : List Text} (h : Expands fs dirs t V out V') :
    ∀ l ∈ out, include_regex_match l = none := by
  induction h with
  | visited _ _ => intro l hl; simp at hl
  | fresh _ _ _ _ ih => exact ih
  | done => intro l hl; simp at hl
  | plain hm _ ih =>
    intro l hl
    rcases List.mem_cons.mp hl with rfl | hl
    · exact hm
    · exact ih l hl
  | directive _ _ _ _ ih₁ ih₂ =>
    intro l hl
    rcases List.mem_append.mp hl with hl | hl
    · exact ih₁ l hl
    · exact ih₂ l hl

/-! ## Resolution -/

theorem searchDirectories_eq_none {fs : FileSystem} {name : Text} : ∀ {dirs : List Path},
    searchDirectories fs name dirs = none ↔ ∀ d ∈ dirs, fs.pathExists (fs.join d name) = false := by
  intro dirs
  induction dirs with
  | nil => simp [searchDirectories]
  | cons d rest ih =>
    rw [searchDirectories]
    by_cases hd : fs.pathExists (fs.join d name) = true
    · simp [hd]
    · simp [hd, ih]

theorem searchDirectories_first {fs : FileSystem} {name : Text} : ∀ (pre : List Path) (d : Path)
    (post : List Path), (∀ x ∈ pre, fs.pathExists (fs.join x name) = false) →
    fs.pathExists (fs.join d name) = true →
    searchDirectories fs name (pre ++ d :: post) = some (fs.join d name) := by
  intro pre
  induction pre with
  | nil => intro d post _ hd; simp [searchDirectories, hd]
  | cons x rest ih =>
    intro d post hpre hd
    have hx : fs.pathExists (fs.join x name) = false := hpre x (List.mem_cons_self _ _)
    simp only [List.cons_append, searchDirectories, hx, Bool.false_eq_true, if_false]
    exact ih d post (fun y hy => hpre y (List.mem_cons_of_mem _ hy)) hd

/-! ## Building expansions of concrete files -/

/-- The rule `Expands.fresh`, with the lines of the file given. -/
theorem expands_fresh_lines (fs : FileSystem) (dirs : List Path) (f cd c : Path)
    (V : List Path) (content : Text) (ls : List Text) {out : List Text} {V' : List Path}
    (hc : fs.canonical f = some c) (hv : c ∉ V) (ho : fs.openRead f = some content)
    (hl : getlines content = ls)
    (h : Expands fs dirs (Target.lines cd ls) (V ++ [c]) out V') :
    Expands fs dirs (Target.file f cd) V out V' := by
  subst hl
  exact Expands.fresh hc hv ho h

/-- The rule `Expands.directive`, with the directory of the target given. -/
theorem expands_directive_at (fs : FileSystem) (dirs : List Path) (cd : Path) (line : Text)
    (is_local : Bool) (name : Text) (target dir : Path) {rest : List Text}
    {V V₁ V₂ : List Path} {out₁ out₂ : List Text}
    (hm : include_regex_match line = some (is_local, name))
    (hr : resolveInclude fs dirs cd is_local name = some target)
    (hd : fs.parent_path target = dir)
    (h₁ : Expands fs dirs (Target.file target dir) V out₁ V₁)
    (h₂ : Expands fs dirs (Target.lines cd rest) V₁ out₂ V₂) :
    Expands fs dirs (Target.lines cd (line :: rest)) V (out₁ ++ out₂) V₂ := by
  subst hd
  exact Expands.directive hm hr h₁ h₂

/-- The expansion of `sources/dir1/b.h` in `Test`, entered right after
`sources/a.cpp`. -/
theorem test_expands_b :
    Expands testFS testDirs (Target.file "sources/dir1/b.h".toList "sources/dir1".toList)
      ["/work/sources/a.cpp".toList]
      [ "// text from b.h before include".toList,
        "// text from c.h before include".toList,
        "// std1".toList,
        "// text from c.h after include".toList,
        "// text from b.h after include".toList ]
      [ "/work/sources/a.cpp".toList, "/work/sources/dir1/b.h".toList,
        "/work/sources/dir1/subdir/c.h".toList, "/work/sources/include1/std1.h".toList ] :=
  expands_fresh_lines testFS testDirs _ _ "/work/sources/dir1/b.h".toList _ test_b_h
    [ "// text from b.h before include".toList, "#include \"subdir/c.h\"".toList,
      "// text from b.h after include".toList ]
    (by decide!) (by decide!) (by decide!) (by decide!)
    (Expands.plain (by decide!)
      (expands_directive_at testFS testDirs _ _ true "subdir/c.h".toList
        "sources/dir1/subdir/c.h".toList "sources/dir1/subdir".toList
        (by decide!) (by decide!) (by decide!)
        (expands_fresh_lines testFS testDirs _ _ "/work/sources/dir1/subdir/c.h".toList _ test_c_h
          [ "// text from c.h before include".toList, "#include <std1.h>".toList,
            "// text from c.h after include".toList ]
          (by decide!) (by decide!) (by decide!) (by decide!)
          (Expands.plain (by decide!)
            (expands_directive_at testFS testDirs _ _ false "std1.h".toList
              "sources/include1/std1.h".toList "sources/include1".toList
              (by decide!) (by decide!) (by decide!)
              (expands_fresh_lines testFS testDirs _ _ "/work/sources/include1/std1.h".toList _
                "// std1\n".toList [ "// std1".toList ]
                (by decide!) (by decide!) (by decide!) (by decide!)
                (Expands.plain (by decide!) Expands.done))
              (Expands.plain (by decide!) Expands.done))))
        (Expands.plain (by decide!) Expands.done)))

/-- The expansion of `sources/dir1/d.h` in `Test`, entered after `b.h` and
what it includes. -/
theorem test_expands_d :
    Expands testFS testDirs (Target.file "sources/dir1/d.h".toList "sources/dir1".toList)
      [ "/work/sources/a.cpp".toList, "/work/sources/dir1/b.h".toList,
        "/work/sources/dir1/subdir/c.h".toList, "/work/sources/include1/std1.h".toList ]
      [ "// text from d.h before include".toList,
        "// std2".toList,
        "// text from d.h after include".toList ]
      [ "/work/sources/a.cpp".toList, "/work/sources/dir1/b.h".toList,
        "/work/sources/dir1/subdir/c.h".toList, "/work/sources/include1/std1.h".toList,
        "/work/sources/dir1/d.h".toList, "/work/sources/include2/lib/std2.h".toList ] :=
  expands_fresh_lines testFS testDirs _ _ "/work/sources/dir1/d.h".toList _ test_d_h
    [ "// text from d.h before include".toList, "#include \"lib/std2.h\"".toList,
      "// text from d.h after include".toList ]
    (by decide!) (by decide!) (by decide!) (by decide!)
    (Expands.plain (by decide!)
      (expands_directive_at testFS testDirs _ _ true "lib/std2.h".toList
        "sources/include2/lib/std2.h".toList "sources/include2/lib".toList
        (by decide!) (by decide!) (by decide!)
        (expands_fresh_lines testFS testDirs _ _ "/work/sources/include2/lib/std2.h".toList _
          "// std2\n".toList [ "// std2".toList ]
          (by decide!) (by decide!) (by decide!) (by decide!)
          (Expands.plain (by decide!) Expands.done))
        (Expands.plain (by decide!) Expands.done)))

/-- In `Test`, the expansion of `sources/a.cpp` reaches the unresolved
`dummy.txt` on line 8 after the 13 lines `Test` expects in the output. -/
theorem test_haltsAt :
    HaltsAt testFS testDirs "sources/a.cpp".toList "sources".toList [] testExpectedLines
      ⟨"dummy.txt".toList, "sources/a.cpp".toList, 8⟩
      [ "/work/sources/a.cpp".toList, "/work/sources/dir1/b.h".toList,
        "/work/sources/dir1/subdir/c.h".toList, "/work/sources/include1/std1.h".toList,
        "/work/sources/dir1/d.h".toList, "/work/sources/include2/lib/std2.h".toList ] :=
  @HaltsAt.here testFS testDirs "sources/a.cpp".toList "sources".toList
    "/work/sources/a.cpp".toList [] test_a_cpp
    [ "// this comment before include".toList, "#include \"dir1/b.h\"".toList,
      "// text between b.h and c.h".toList, "#include \"dir1/d.h\"".toList, [],
      "int SayHello() \x7b".toList, "    cout << \"hello, world!\" << endl;".toList ]
    "#   include<dummy.txt>".toList [ "\x7d".toList ] testExpectedLines _ false
    "dummy.txt".toList
    (by decide!) (by decide!) (by decide!) (by decide!)
    (Expands.plain (by decide!)
      (expands_directive_at testFS testDirs _ _ true "dir1/b.h".toList
        "sources/dir1/b.h".toList "sources/dir1".toList
        (by decide!) (by decide!) (by decide!) test_expands_b
        (Expands.plain (by decide!)
          (expands_directive_at testFS testDirs _ _ true "dir1/d.h".toList
            "sources/dir1/d.h".toList "sources/dir1".toList
            (by decide!) (by decide!) (by decide!) test_expands_d
            (Expands.plain (by decide!) (Expands.plain (by decide!)
              (Expands.plain (by decide!) Expands.done)))))))
    (by decide!) (by decide!)

/-- The loop copies lines none of which is a directive and returns true. -/
theorem scanLines_plain (fs : FileSystem) (dirs : List Path)
    (r : Path → Path → State → Option (Outcome × State)) (fp cd : Path) :
    ∀ (ls : List Text) (k : Int) (st : State), (∀ l ∈ ls, include_regex_match l = none) →
    scanLines fs dirs r fp cd ls k st =
      some (Outcome.returned true, { st with output := st.output ++ renderLines ls }) := by
  intro ls
  induction ls with
  | nil => intro k st _; simp [scanLines, renderLines]
  | cons l rest ih =>
    intro k st h
    rw [scanLines, h l (List.mem_cons_self _ _)]
    dsimp only
    rw [ih _ _ (fun x hx => h x (List.mem_cons_of_mem _ hx))]
    simp [emitLine, renderLines]

/-- Every canonical path of a table filesystem is in its table. -/
theorem tableFS_canonical_mem (table : List (Path × Path × Text)) (p c : Path)
    (h : (tableFS table).canonical p = some c) : c ∈ table.map (fun e => e.2.1) := by
  induction table with
  | nil => simp [tableFS, List.lookup] at h
  | cons e rest ih =>
    obtain ⟨q, c', t⟩ := e
    simp only [tableFS, List.lookup] at h ih
    by_cases hpq : p = q
    · subst hpq
      simp at h
      simp [h]
    · have : (p == q) = false := by simpa using hpq
      rw [this] at h
      simp only [List.map_cons, List.mem_cons]
      exact Or.inr (ih h)

/-! ## The claims -/

/-- C1: whenever `Preprocess` returns true, the output is the rendered
expansion of the root file: the non-directive lines of the root file and of
the files it includes, each followed by a newline, depth first, every
directive replaced by the expansion of its resolved target (nothing for a
target already visited); no line of the output is a directive and nothing
else is written. -/
theorem Preprocess_output_is_expansion (fs : FileSystem) (dirs : List Path) (fuel : Nat)
    (input_path output_path : Path) (st : State)
    (h : Preprocess fs fuel input_path output_path dirs = some (Outcome.returned true, st)) :
    ∃ out : List Text,
      Expands fs dirs (Target.file input_path (fs.parent_path input_path)) [] out
        st.processed_files ∧
      st.output = renderLines out ∧
      (∀ l ∈ out, include_regex_match l = none) ∧
      st.diagnostics = [] := by
  unfold Preprocess at h
  by_cases hc : fs.createOutput output_path = true
  · rw [if_pos hc] at h
    obtain ⟨out, hex, hout, hd⟩ := ProcessFile_sound fs dirs fuel _ _ _ _ h
    exact ⟨out, hex, by simpa using hout, expands_plain_lines hex, by simpa using hd⟩
  · rw [if_neg hc] at h
    simp at h

theorem Preprocess_output_is_expansion_witness :
    ∃ out : List Text,
      Expands testFS testDirs
        (Target.file "sources/dir1/b.h".toList (testFS.parent_path "sources/dir1/b.h".toList)) []
        out
        ["/work/sources/dir1/b.h".toList, "/work/sources/dir1/subdir/c.h".toList,
          "/work/sources/include1/std1.h".toList] ∧
      ("// text from b.h before include\n" ++ "// text from c.h before include\n" ++
        "// std1\n" ++ "// text from c.h after include\n" ++
        "// text from b.h after include\n").toList = renderLines out ∧
      (∀ l ∈ out, include_regex_match l = none) ∧
      ([] : List Text) = [] :=
  Preprocess_output_is_expansion testFS testDirs 3 "sources/dir1/b.h".toList
    "sources/b.in".toList
    ⟨("// text from b.h before include\n" ++ "// text from c.h before include\n" ++
        "// std1\n" ++ "// text from c.h after include\n" ++
        "// text from b.h after include\n").toList,
      ["/work/sources/dir1/b.h".toList, "/work/sources/dir1/subdir/c.h".toList,
        "/work/sources/include1/std1.h".toList], []⟩
    (by decide!)

/-- C2: when the depth-first expansion of the root file reaches an include
directive that cannot be resolved (and the output could be created),
`Preprocess` returns false, given enough fuel, and the output is exactly the
rendered expansion of what precedes that directive: no line that follows it,
in its file or in an enclosing file, is written. -/
theorem Preprocess_unresolved_returns_false (fs : FileSystem) (dirs : List Path)
    (input_path output_path : Path) (out : List Text) (e : Failure) (V : List Path)
    (hcreate : fs.createOutput output_path = true)
    (h : HaltsAt fs dirs input_path (fs.parent_path input_path) [] out e V) :
    ∃ n₀, ∀ fuel, n₀ ≤ fuel → ∃ st : State,
      Preprocess fs fuel input_path output_path dirs = some (Outcome.returned false, st) ∧
      st.output = renderLines out ∧ st.processed_files = V := by
  obtain ⟨n₀, hn⟩ := haltsAt_complete h
  refine ⟨n₀, fun fuel hfuel => ?_⟩
  have := hn fuel hfuel ⟨[], [], []⟩ rfl
  refine ⟨⟨renderLines out, V,
    [diagnostic e.include_file e.parent_file (advance 0 e.line_index)]⟩, ?_, rfl, rfl⟩
  unfold Preprocess
  rw [if_pos hcreate, this]
  simp

/-- In `Test`: `dummy.txt` on line 8 of `sources/a.cpp` is not resolved,
`Preprocess` returns false and the output is the 13 lines `Test` expects,
without the closing brace line. -/
theorem Preprocess_unresolved_returns_false_witness :
    testFS.createOutput "sources/a.in".toList = true ∧
    (∃ n₀, ∀ fuel, n₀ ≤ fuel → ∃ st : State,
      Preprocess testFS fuel "sources/a.cpp".toList "sources/a.in".toList testDirs =
        some (Outcome.returned false, st) ∧
      st.output = renderLines testExpectedLines ∧
      st.processed_files =
        [ "/work/sources/a.cpp".toList, "/work/sources/dir1/b.h".toList,
          "/work/sources/dir1/subdir/c.h".toList, "/work/sources/include1/std1.h".toList,
          "/work/sources/dir1/d.h".toList, "/work/sources/include2/lib/std2.h".toList ]) ∧
    renderLines testExpectedLines = testExpected ∧
    (Preprocess testFS 4 "sources/a.cpp".toList "sources/a.in".toList testDirs).map
      (fun r => (r.1, r.2.output)) = some (Outcome.returned false, testExpected) := by
  have hp : testFS.parent_path "sources/a.cpp".toList = "sources".toList := by decide!
  refine ⟨by decide!, ?_, by decide!, by decide!⟩
  exact Preprocess_unresolved_returns_false testFS testDirs _ _ _ _ _ (by decide!)
    (hp ▸ test_haltsAt)

/-- C3: when the expansion of a file reaches an unresolved include
directive, `ProcessFile` writes exactly one diagnostic, and it is
`unknown include file <name> at file <path> at line <N>` with the name
between the delimiters of the directive, the path under which the file
holding the directive was processed and the 1-based index of the directive
among the lines of that file (an index that fits an `int`). -/
theorem ProcessFile_unresolved_diagnostic (fs : FileSystem) (dirs : List Path)
    (f cd : Path) (st : State) (out : List Text) (e : Failure) (V : List Path)
    (h : HaltsAt fs dirs f cd st.processed_files out e V)
    (hN : e.line_index < 2147483648) :
    ∃ n₀, ∀ fuel, n₀ ≤ fuel → ∃ st' : State,
      ProcessFile fs dirs fuel f cd st = some (Outcome.returned false, st') ∧
      st'.diagnostics = st.diagnostics ++
        ["unknown include file ".toList ++ e.include_file ++ " at file ".toList ++ e.parent_file
          ++ " at line ".toList ++ Nat.toDigits 10 e.line_index] := by
  obtain ⟨n₀, hn⟩ := haltsAt_complete h
  refine ⟨n₀, fun fuel hfuel => ⟨_, hn fuel hfuel st rfl, ?_⟩⟩
  have ha : advance 0 e.line_index = Int.ofNat e.line_index := by
    rw [advance_of_bounds e.line_index 0 (le_refl 0) (by omega)]
    simp
  simp only [ha, diagnostic, intToText]

/-- In `Test`: the one diagnostic names `dummy.txt`, `sources/a.cpp` and
line 8, the index of the directive in `a.cpp`, although 13 lines were
written before it. -/
theorem ProcessFile_unresolved_diagnostic_witness :
    (8 : Nat) < 2147483648 ∧
    ∃ n₀, ∀ fuel, n₀ ≤ fuel → ∃ st' : State,
      ProcessFile testFS testDirs fuel "sources/a.cpp".toList "sources".toList ⟨[], [], []⟩ =
        some (Outcome.returned false, st') ∧
      st'.diagnostics = [] ++
        ["unknown include file ".toList ++ "dummy.txt".toList ++ " at file ".toList
          ++ "sources/a.cpp".toList ++ " at line ".toList ++ Nat.toDigits 10 8] :=
  ⟨by decide, ProcessFile_unresolved_diagnostic testFS testDirs _ _ ⟨[], [], []⟩ _
    ⟨"dummy.txt".toList, "sources/a.cpp".toList, 8⟩ _ test_haltsAt (by decide)⟩

/-- C4, as stated, fails: `src/plain.txt` holds `one\ntwo`, no line of it
is a directive, `Preprocess` returns true and the output is `one\ntwo\n`,
one character longer than the content. -/
theorem Preprocess_no_include_not_identical :
    shadowFS.openRead "src/plain.txt".toList = some "one\ntwo".toList ∧
    (∀ l ∈ getlines "one\ntwo".toList, include_regex_match l = none) ∧
    Preprocess shadowFS 1 "src/plain.txt".toList "src/plain.out".toList [] =
      some (Outcome.returned true,
        ⟨"one\ntwo\n".toList, ["/src/plain.txt".toList], []⟩) ∧
    "one\ntwo\n".toList ≠ "one\ntwo".toList := by
  decide!

/-- C4, amended: for a root file that exists and opens, none of whose lines
is an include directive, and an output that can be created, `Preprocess`
returns true and the output is the content with its last line terminated:
the content itself when it is empty or ends in a newline, the content and
one newline otherwise. -/
theorem Preprocess_no_include (fs : FileSystem) (dirs : List Path) (fuel : Nat)
    (input_path output_path c : Path) (content : Text)
    (hcreate : fs.createOutput output_path = true)
    (hc : fs.canonical input_path = some c)
    (ho : fs.openRead input_path = some content)
    (hplain : ∀ l ∈ getlines content, include_regex_match l = none) :
    Preprocess fs (fuel + 1) input_path output_path dirs =
        some (Outcome.returned true, ⟨terminated content, [c], []⟩) ∧
      ((content = [] ∨ content.getLast? = some '\n') → terminated content = content) ∧
      (¬ (content = [] ∨ content.getLast? = some '\n') →
        terminated content = content ++ ['\n']) := by
  refine ⟨?_, fun h => by simp [terminated, h], fun h => by simp [terminated, h]⟩
  unfold Preprocess
  rw [if_pos hcreate, ProcessFile, hc]
  dsimp only
  rw [if_neg (by simp), ho]
  dsimp only
  rw [scanLines_plain fs dirs _ _ _ _ _ _ hplain, renderLines_getlines]
  simp

theorem Preprocess_no_include_witness :
    Preprocess shadowFS (0 + 1) "src/x.h".toList "src/x.out".toList [] =
        some (Outcome.returned true, ⟨terminated "local\n".toList, ["/src/x.h".toList], []⟩) ∧
      (("local\n".toList = [] ∨ "local\n".toList.getLast? = some '\n') →
        terminated "local\n".toList = "local\n".toList) ∧
      (¬ ("local\n".toList = [] ∨ "local\n".toList.getLast? = some '\n') →
        terminated "local\n".toList = "local\n".toList ++ ['\n']) :=
  Preprocess_no_include shadowFS [] 0 "src/x.h".toList "src/x.out".toList "/src/x.h".toList
    "local\n".toList (by decide!) (by decide!) (by decide!) (by decide!)

/-- C5: on a finite filesystem (all canonical paths in the list `known`)
`ProcessFile` terminates, cycles and self-inclusion included: from every
state and for every file there is one result that every fuel above
`known.length` gives.  The recursion is bounded because a call that does not
return at once appends to `processed_files` the canonical path of its file,
which was not in it. -/
theorem ProcessFile_terminates (fs : FileSystem) (dirs : List Path) (known : List Path)
    (hfin : ∀ p c, fs.canonical p = some c → c ∈ known) :
    (∀ (f cd : Path) (st : State), ∃ res : Outcome × State,
      ∀ fuel, known.length < fuel → ProcessFile fs dirs fuel f cd st = some res) ∧
    (∀ (fuel : Nat) (f cd c : Path) (st : State) (res : Outcome × State),
      ProcessFile fs dirs fuel f cd st = some res →
      fs.canonical f = some c → c ∉ st.processed_files →
      st.processed_files ++ [c] <+: res.2.processed_files ∧
        unvisited known res.2.processed_files < unvisited known st.processed_files) := by
  constructor
  · intro f cd st
    have hlt : unvisited known st.processed_files < known.length + 1 :=
      Nat.lt_succ_of_le (List.countP_le_length _)
    obtain ⟨res, hres⟩ := ProcessFile_returns fs dirs known hfin (known.length + 1) f cd st hlt
    exact ⟨res, fun fuel hfuel => ProcessFile_mono fs dirs (by omega) hres⟩
  · intro fuel f cd c st res hres hc hv
    have hpre := (ProcessFile_enters fs dirs fuel f cd st res hres).2 c hc hv
    exact ⟨hpre, lt_of_le_of_lt (unvisited_mono known hpre) (unvisited_lt known (hfin f c hc) hv)⟩

/-- On `cycleFS`, where `a.h` and `b.h` include each other and `self.h`
includes itself, every call comes back with fuel above 4; `a.h` expands to
the line of `b.h` and its own, `self.h` to its two lines. -/
theorem ProcessFile_terminates_witness :
    (∀ p c, cycleFS.canonical p = some c →
      c ∈ ["/a.h".toList, "/a.h".toList, "/b.h".toList, "/self.h".toList]) ∧
    (∀ (f cd : Path) (st : State), ∃ res : Outcome × State,
      ∀ fuel, 4 < fuel → ProcessFile cycleFS [] fuel f cd st = some res) ∧
    ProcessFile cycleFS [] 5 "a.h".toList [] ⟨[], [], []⟩ =
      some (Outcome.returned true, ⟨"B\nA\n".toList, ["/a.h".toList, "/b.h".toList], []⟩) ∧
    ProcessFile cycleFS [] 5 "self.h".toList [] ⟨[], [], []⟩ =
      some (Outcome.returned true, ⟨"S\nT\n".toList, ["/self.h".toList], []⟩) :=
  ⟨tableFS_canonical_mem _,
    (ProcessFile_terminates cycleFS []
      ["/a.h".toList, "/a.h".toList, "/b.h".toList, "/self.h".toList]
      (tableFS_canonical_mem _)).1,
    by decide!, by decide!⟩

/-- C6: for a file whose canonical path is already in `processed_files`,
`ProcessFile` returns true and leaves the state as it was: nothing appended
to the output, no diagnostic, `processed_files` unchanged.  Only the
canonical path of `file_path` enters, so this holds for every spelling of
the path. -/
theorem ProcessFile_visited_is_noop (fs : FileSystem) (dirs : List Path) (fuel : Nat)
    (file_path current_dir c : Path) (st : State)
    (hc : fs.canonical file_path = some c) (hv : c ∈ st.processed_files) :
    ProcessFile fs dirs (fuel + 1) file_path current_dir st = some (Outcome.returned true, st) := by
  simp [ProcessFile, hc, hv]

/-- On `cycleFS`: after `a.h` was expanded, `./a.h`, another spelling of the
same file, is a no-op. -/
theorem ProcessFile_visited_is_noop_witness :
    ProcessFile cycleFS [] 3 "a.h".toList [] ⟨[], [], []⟩ =
      some (Outcome.returned true, ⟨"B\nA\n".toList, ["/a.h".toList, "/b.h".toList], []⟩) ∧
    cycleFS.canonical "./a.h".toList = some "/a.h".toList ∧
    ProcessFile cycleFS [] (0 + 1) "./a.h".toList []
        ⟨"B\nA\n".toList, ["/a.h".toList, "/b.h".toList], []⟩ =
      some (Outcome.returned true, ⟨"B\nA\n".toList, ["/a.h".toList, "/b.h".toList], []⟩) :=
  ⟨by decide!, by decide!,
    ProcessFile_visited_is_noop cycleFS [] 0 "./a.h".toList [] "/a.h".toList
      ⟨"B\nA\n".toList, ["/a.h".toList, "/b.h".toList], []⟩ (by decide!) (by decide!)⟩

/-- C7: a directive recognised as quoted whose name exists relative to the
current directory resolves to `current_dir / name` whatever the search
directories are, and the loop expands that file in its place. -/
theorem quoted_include_prefers_current_dir (fs : FileSystem) (dirs : List Path)
    (recurse : Path → Path → State → Option (Outcome × State)) (file_path current_dir : Path)
    (line name : Text) (rest : List Text) (k : Int) (st : State)
    (hm : include_regex_match line = some (true, name))
    (hex : fs.pathExists (fs.join current_dir name) = true) :
    resolveInclude fs dirs current_dir true name = some (fs.join current_dir name) ∧
    scanLines fs dirs recurse file_path current_dir (line :: rest) k st =
      match recurse (fs.join current_dir name) (fs.parent_path (fs.join current_dir name)) st with
      | none => none
      | some (Outcome.returned true, st1) =>
        scanLines fs dirs recurse file_path current_dir rest (wrapInt32 (k + 1)) st1
      | some (Outcome.returned false, st1) => some (Outcome.returned false, st1)
      | some (Outcome.threw, st1) => some (Outcome.threw, st1) := by
  have hr : resolveInclude fs dirs current_dir true name = some (fs.join current_dir name) := by
    simp [resolveInclude, hex]
  refine ⟨hr, ?_⟩
  rw [scanLines, hm]
  dsimp only
  rw [hr]

/-- On `shadowFS`: `x.h` exists in `src` and in the search directory `inc`;
the quoted include of `src/q.cpp` takes `src/x.h`, and the output has the
line of the local header. -/
theorem quoted_include_prefers_current_dir_witness :
    shadowFS.pathExists (shadowFS.join "inc".toList "x.h".toList) = true ∧
    resolveInclude shadowFS ["inc".toList] "src".toList true "x.h".toList =
      some (shadowFS.join "src".toList "x.h".toList) ∧
    shadowFS.join "src".toList "x.h".toList = "src/x.h".toList ∧
    Preprocess shadowFS 2 "src/q.cpp".toList "src/q.out".toList ["inc".toList] =
      some (Outcome.returned true,
        ⟨"local\nQ\n".toList, ["/src/q.cpp".toList, "/src/x.h".toList], []⟩) :=
  ⟨by decide!,
    (quoted_include_prefers_current_dir shadowFS ["inc".toList] (fun _ _ _ => none)
      "src/q.cpp".toList "src".toList "#include \"x.h\"".toList "x.h".toList [] 0 ⟨[], [], []⟩
      (by decide!) (by decide!)).1,
    by decide!, by decide!⟩

/-- C8: for an angle-bracket directive, and for a quoted one whose name does
not exist relative to the current directory, the resolved path is
`dir / name` for the first `dir` of the search list such that it exists, and
resolution fails exactly when no directory of the list has the entry. -/
theorem search_directories_in_order (fs : FileSystem) (dirs : List Path) (current_dir : Path)
    (is_local : Bool) (name : Text)
    (h : is_local = false ∨ fs.pathExists (fs.join current_dir name) = false) :
    (∀ (pre : List Path) (d : Path) (post : List Path), dirs = pre ++ d :: post →
      (∀ x ∈ pre, fs.pathExists (fs.join x name) = false) →
      fs.pathExists (fs.join d name) = true →
      resolveInclude fs dirs current_dir is_local name = some (fs.join d name)) ∧
    (resolveInclude fs dirs current_dir is_local name = none ↔
      ∀ d ∈ dirs, fs.pathExists (fs.join d name) = false) := by
  have hr : resolveInclude fs dirs current_dir is_local name = searchDirectories fs name dirs := by
    unfold resolveInclude
    rcases h with h | h <;> simp [h]
  rw [hr]
  refine ⟨?_, searchDirectories_eq_none⟩
  intro pre d post hd hpre hex
  subst hd
  exact searchDirectories_first pre d post hpre hex

/-- In `Test`: `<std1.h>` in `dir1/subdir/c.h` resolves to
`sources/include1/std1.h`, the first search directory, and the quoted
`"lib/std2.h"` in `dir1/d.h`, absent from `dir1` and from `include1`, to
`sources/include2/lib/std2.h`. -/
theorem search_directories_in_order_witness :
    resolveInclude testFS testDirs "sources/dir1/subdir".toList false "std1.h".toList =
      some "sources/include1/std1.h".toList ∧
    testFS.pathExists (testFS.join "sources/dir1".toList "lib/std2.h".toList) = false ∧
    resolveInclude testFS testDirs "sources/dir1".toList true "lib/std2.h".toList =
      some "sources/include2/lib/std2.h".toList ∧
    (resolveInclude testFS testDirs "sources".toList false "dummy.txt".toList = none ↔
      ∀ d ∈ testDirs, testFS.pathExists (testFS.join d "dummy.txt".toList) = false) :=
  ⟨(search_directories_in_order testFS testDirs "sources/dir1/subdir".toList false
      "std1.h".toList (Or.inl rfl)).1 [] "sources/include1".toList ["sources/include2".toList]
      (by decide!) (by decide!) (by decide!),
    by decide!,
    (search_directories_in_order testFS testDirs "sources/dir1".toList true
      "lib/std2.h".toList (Or.inr (by decide!))).1 ["sources/include1".toList]
      "sources/include2".toList [] (by decide!) (by decide!) (by decide!),
    (search_directories_in_order testFS testDirs "sources".toList false
      "dummy.txt".toList (Or.inl rfl)).2⟩

/-- C9: an angle-bracket include is resolved through the search directories
alone: its resolution is the search over the list, in which the current
directory does not occur; when no search directory has the name, it fails
(even when `current_dir / name` exists), the loop writes the diagnostic and
returns false, and so does, given enough fuel, `ProcessFile` on a file that
reaches the directive. -/
theorem angle_include_ignores_current_dir (fs : FileSystem) (dirs : List Path)
    (current_dir : Path) (line name : Text)
    (hm : include_regex_match line = some (false, name))
    (hdirs : ∀ d ∈ dirs, fs.pathExists (fs.join d name) = false) :
    resolveInclude fs dirs current_dir false name = searchDirectories fs name dirs ∧
    resolveInclude fs dirs current_dir false name = none ∧
    (∀ (recurse : Path → Path → State → Option (Outcome × State)) (file_path : Path)
      (rest : List Text) (k : Int) (st : State),
      scanLines fs dirs recurse file_path current_dir (line :: rest) k st =
        some (Outcome.returned false, PrintError st name file_path (wrapInt32 (k + 1)))) ∧
    (∀ (file_path c : Path) (content : Text) (pre post out : List Text) (V₁ : List Path)
      (st : State),
      fs.canonical file_path = some c → c ∉ st.processed_files →
      fs.openRead file_path = some content → getlines content = pre ++ line :: post →
      Expands fs dirs (Target.lines current_dir pre) (st.processed_files ++ [c]) out V₁ →
      ∃ n₀, ∀ fuel, n₀ ≤ fuel →
        ProcessFile fs dirs fuel file_path current_dir st =
          some (Outcome.returned false,
            ⟨st.output ++ renderLines out, V₁,
              st.diagnostics ++ [diagnostic name file_path (advance 0 (pre.length + 1))]⟩)) := by
  have hs : resolveInclude fs dirs current_dir false name = searchDirectories fs name dirs := by
    simp [resolveInclude]
  have hr : resolveInclude fs dirs current_dir false name = none := by
    rw [hs]
    exact searchDirectories_eq_none.mpr hdirs
  refine ⟨hs, hr, ?_, ?_⟩
  · intro recurse file_path rest k st
    rw [scanLines, hm]
    dsimp only
    rw [hr]
  · intro file_path c content pre post out V₁ st hc hv ho hl hpre
    obtain ⟨n₀, hn⟩ := haltsAt_complete (HaltsAt.here hc hv ho hl hpre hm hr)
    exact ⟨n₀, fun fuel hfuel => hn fuel hfuel st rfl⟩

/-- On `shadowFS`: `src/r.cpp` includes `<x.h>` on its line 2; `src/x.h`
exists beside it but the search directory `other` has no `x.h`:
`Preprocess` returns false after the first line, with the diagnostic. -/
theorem angle_include_ignores_current_dir_witness :
    shadowFS.pathExists (shadowFS.join "src".toList "x.h".toList) = true ∧
    resolveInclude shadowFS ["other".toList] "src".toList false "x.h".toList = none ∧
    Preprocess shadowFS 1 "src/r.cpp".toList "src/r.out".toList ["other".toList] =
      some (Outcome.returned false,
        ⟨"R\n".toList, ["/src/r.cpp".toList],
          ["unknown include file x.h at file src/r.cpp at line 2".toList]⟩) :=
  ⟨by decide!,
    (angle_include_ignores_current_dir shadowFS ["other".toList] "src".toList
      "#include <x.h>".toList "x.h".toList (by decide!) (by decide!)).2.1,
    by decide!⟩

/-- C10: `Preprocess` expands the root file with the directory containing it
as current directory, and the loop expands the target of a resolved
directive with the directory containing the target (`parent_path` of the
resolved path) as current directory, whichever way it was resolved. -/
theorem recursion_uses_directory_of_file (fs : FileSystem) (dirs : List Path)
    (file_path current_dir : Path) (line name : Text) (is_local : Bool) (target : Path)
    (hm : include_regex_match line = some (is_local, name))
    (hr : resolveInclude fs dirs current_dir is_local name = some target) :
    (∀ (fuel : Nat) (input_path output_path : Path), fs.createOutput output_path = true →
      Preprocess fs fuel input_path output_path dirs =
        ProcessFile fs dirs fuel input_path (fs.parent_path input_path) ⟨[], [], []⟩) ∧
    (∀ (recurse : Path → Path → State → Option (Outcome × State)) (rest : List Text) (k : Int)
      (st : State),
      scanLines fs dirs recurse file_path current_dir (line :: rest) k st =
        match recurse target (fs.parent_path target) st with
        | none => none
        | some (Outcome.returned true, st1) =>
          scanLines fs dirs recurse file_path current_dir rest (wrapInt32 (k + 1)) st1
        | some (Outcome.returned false, st1) => some (Outcome.returned false, st1)
        | some (Outcome.threw, st1) => some (Outcome.threw, st1)) ∧
    (∀ (fuel : Nat) (c : Path) (content : Text) (st : State),
      fs.canonical target = some c → c ∉ st.processed_files →
      fs.openRead target = some content →
      ProcessFile fs dirs (fuel + 1) target (fs.parent_path target) st =
        scanLines fs dirs (ProcessFile fs dirs fuel) target (fs.parent_path target)
          (getlines content) 0 { st with processed_files := st.processed_files ++ [c] }) := by
  refine ⟨?_, ?_, ?_⟩
  · intro fuel input_path output_path hcreate
    simp [Preprocess, hcreate]
  · intro recurse rest k st
    rw [scanLines, hm]
    dsimp only
    rw [hr]
  · intro fuel c content st hc hv ho
    simp [ProcessFile, hc, hv, ho]

/-- In `Test`: `sources/dir1/b.h`, reached from `sources/a.cpp`, is expanded
with current directory `sources/dir1`, so that its `"subdir/c.h"` resolves to
`sources/dir1/subdir/c.h`; the root `sources/a.cpp` is expanded with current
directory `sources`. -/
theorem recursion_uses_directory_of_file_witness :
    testFS.parent_path "sources/dir1/b.h".toList = "sources/dir1".toList ∧
    resolveInclude testFS testDirs (testFS.parent_path "sources/dir1/b.h".toList) true
      "subdir/c.h".toList = some "sources/dir1/subdir/c.h".toList ∧
    testFS.parent_path "sources/a.cpp".toList = "sources".toList ∧
    (∀ (fuel : Nat) (input_path output_path : Path), testFS.createOutput output_path = true →
      Preprocess testFS fuel input_path output_path testDirs =
        ProcessFile testFS testDirs fuel input_path (testFS.parent_path input_path)
          ⟨[], [], []⟩) :=
  ⟨by decide!, by decide!, by decide!,
    (recursion_uses_directory_of_file testFS testDirs "sources/a.cpp".toList "sources".toList
      "#include \"dir1/b.h\"".toList "dir1/b.h".toList true "sources/dir1/b.h".toList
      (by decide!) (by decide!)).1⟩

/-! ## Relations kept by every step of a run -/

/-- A relation between states that is reflexive and transitive and holds
across each elementary step (a line written, a diagnostic written, a
canonical path not yet visited appended) holds between the state at entry
and the state at return of the loop, when it does for the recursive call. -/
theorem scanLines_keeps {fs : FileSystem} {dirs : List Path} (R : State → State → Prop)
    (hrefl : ∀ s, R s s) (htrans : ∀ a b c, R a b → R b c → R a c)
    (hemit : ∀ s line, R s (emitLine s line))
    (herr : ∀ s name p k, R s (PrintError s name p k))
    {r : Path → Path → State → Option (Outcome × State)}
    (hr : ∀ f cd st res, r f cd st = some res → R st res.2)
    (fp cd : Path) : ∀ (ls : List Text) (k : Int) (st : State) (res : Outcome × State),
    scanLines fs dirs r fp cd ls k st = some res → R st res.2 := by
  intro ls
  induction ls with
  | nil =>
    intro k st res h
    simp only [scanLines, Option.some.injEq] at h
    subst h
    exact hrefl _
  | cons line rest ih =>
    intro k st res h
    rw [scanLines] at h
    cases hm : include_regex_match line with
    | none =>
      rw [hm] at h
      exact htrans _ _ _ (hemit st line) (ih _ (emitLine st line) _ h)
    | some p =>
      obtain ⟨is_local, name⟩ := p
      rw [hm] at h
      dsimp only at h
      cases hres : resolveInclude fs dirs cd is_local name with
      | none =>
        rw [hres] at h
        simp only [Option.some.injEq] at h
        subst h
        exact herr _ _ _ _
      | some target =>
        rw [hres] at h
        dsimp only at h
        cases h1 : r target (fs.parent_path target) st with
        | none => rw [h1] at h; simp at h
        | some q =>
          rw [h1] at h
          have hq := hr _ _ _ _ h1
          obtain ⟨o, st1⟩ := q
          cases o with
          | threw =>
            simp only [Option.some.injEq] at h
            subst h
            exact hq
          | returned b =>
            cases b with
            | false =>
              simp only [Option.some.injEq] at h
              subst h
              exact hq
            | true => exact htrans _ _ _ hq (ih _ _ _ h)

/-- A relation between states that is reflexive and transitive and holds
across each elementary step holds between the state at entry and the state
at return of `ProcessFile`, whatever the call produced. -/
theorem ProcessFile_keeps (fs : FileSystem) (dirs : List Path) (R : State → State → Prop)
    (hrefl : ∀ s, R s s) (htrans : ∀ a b c, R a b → R b c → R a c)
    (hemit : ∀ s line, R s (emitLine s line))
    (herr : ∀ s name p k, R s (PrintError s name p k))
    (hpush : ∀ (s : State) (p c : Path), fs.canonical p = some c → c ∉ s.processed_files →
      R s { s with processed_files := s.processed_files ++ [c] }) :
    ∀ (fuel : Nat) (f cd : Path) (st : State) (res : Outcome × State),
    ProcessFile fs dirs fuel f cd st = some res → R st res.2 := by
  intro fuel
  induction fuel with
  | zero => intro f cd st res h; simp [ProcessFile] at h
  | succ n ih =>
    intro f cd st res h
    rw [ProcessFile] at h
    cases hc : fs.canonical f with
    | none =>
      rw [hc] at h
      simp only [Option.some.injEq] at h
      subst h
      exact hrefl _
    | some c =>
      rw [hc] at h
      dsimp only at h
      by_cases hv : c ∈ st.processed_files
      · rw [if_pos hv] at h
        simp only [Option.some.injEq] at h
        subst h
        exact hrefl _
      · rw [if_neg hv] at h
        have hp := hpush st f c hc hv
        cases ho : fs.openRead f with
        | none =>
          rw [ho] at h
          simp only [Option.some.injEq] at h
          subst h
          exact hp
        | some content =>
          rw [ho] at h
          exact htrans _ _ _ hp (scanLines_keeps R hrefl htrans hemit herr ih _ _ _ _ _ _ h)

/-! ## The claims on the output and the Visited Set -/

/-- C16: the output is append-only.  Whatever a call of `ProcessFile`
produces (true, false, or the exception of `fs::canonical`), the output at
return starts with the output at entry: what was written stays in place,
also on failure. -/
theorem ProcessFile_output_append_only (fs : FileSystem) (dirs : List Path) (fuel : Nat)
    (file_path current_dir : Path) (st : State) (res : Outcome × State)
    (h : ProcessFile fs dirs fuel file_path current_dir st = some res) :
    st.output <+: res.2.output := by
  refine ProcessFile_keeps fs dirs (fun a b => a.output <+: b.output)
    (fun _ => List.prefix_rfl) (fun _ _ _ hab hbc => hab.trans hbc) ?_ ?_ ?_ fuel _ _ _ _ h
  · intro s line
    simp only [emitLine, List.append_assoc]
    exact List.prefix_append _ _
  · intro s name p k
    exact List.prefix_rfl
  · intro s p c _ _
    exact List.prefix_rfl

/-- In `Test`, started with `X` already in the output: the call returns
false and the output is `X` followed by the 13 lines written before the
failure. -/
theorem ProcessFile_output_append_only_witness :
    ProcessFile testFS testDirs 4 "sources/a.cpp".toList "sources".toList
        ⟨"X\n".toList, [], []⟩ =
      some (Outcome.returned false,
        ⟨"X\n".toList ++ testExpected,
          [ "/work/sources/a.cpp".toList, "/work/sources/dir1/b.h".toList,
            "/work/sources/dir1/subdir/c.h".toList, "/work/sources/include1/std1.h".toList,
            "/work/sources/dir1/d.h".toList, "/work/sources/include2/lib/std2.h".toList ],
          ["unknown include file dummy.txt at file sources/a.cpp at line 8".toList]⟩) ∧
    "X\n".toList <+: "X\n".toList ++ testExpected :=
  ⟨by decide!,
    ProcessFile_output_append_only testFS testDirs 4 "sources/a.cpp".toList "sources".toList
      ⟨"X\n".toList, [], []⟩
      (Outcome.returned false,
        ⟨"X\n".toList ++ testExpected,
          [ "/work/sources/a.cpp".toList, "/work/sources/dir1/b.h".toList,
            "/work/sources/dir1/subdir/c.h".toList, "/work/sources/include1/std1.h".toList,
            "/work/sources/dir1/d.h".toList, "/work/sources/include2/lib/std2.h".toList ],
          ["unknown include file dummy.txt at file sources/a.cpp at line 8".toList]⟩)
      (by decide!)⟩

/-- A list `processed_files` without duplicates stays so across a call of
`ProcessFile`. -/
theorem ProcessFile_nodup (fs : FileSystem) (dirs : List Path) (fuel : Nat) (f cd : Path)
    (st : State) (res : Outcome × State) (h : ProcessFile fs dirs fuel f cd st = some res) :
    st.processed_files.Nodup → res.2.processed_files.Nodup := by
  refine ProcessFile_keeps fs dirs
    (fun a b => a.processed_files.Nodup → b.processed_files.Nodup)
    (fun _ => id) (fun _ _ _ hab hbc hn => hbc (hab hn)) (fun _ _ => id) (fun _ _ _ _ => id)
    ?_ fuel _ _ _ _ h
  intro s p c _ hv hn
  rw [List.nodup_append]
  refine ⟨hn, List.nodup_singleton c, ?_⟩
  intro x hx hx'
  rw [List.mem_singleton] at hx'
  subst hx'
  exact hv hx

/-- C18: every line the expander writes is followed by a newline, so the
output of every run of `Preprocess` (true, false or exception) is empty or
ends with a newline; and a file of plain lines is written back with its last
line terminated, a newline being added when the file ends without one. -/
theorem Preprocess_output_ends_with_newline (fs : FileSystem) (dirs : List Path) (fuel : Nat)
    (input_path output_path : Path) (res : Outcome × State)
    (h : Preprocess fs fuel input_path output_path dirs = some res) :
    (res.2.output = [] ∨ res.2.output.getLast? = some '\n') ∧
    (∀ (st : State) (line : Text), (emitLine st line).output = st.output ++ line ++ ['\n']) ∧
    (∀ (recurse : Path → Path → State → Option (Outcome × State)) (fp cd : Path)
      (content : Text) (k : Int) (st : State),
      (∀ l ∈ getlines content, include_regex_match l = none) →
      scanLines fs dirs recurse fp cd (getlines content) k st =
        some (Outcome.returned true, { st with output := st.output ++ terminated content })) := by
  refine ⟨?_, fun _ _ => rfl, ?_⟩
  · unfold Preprocess at h
    by_cases hc : fs.createOutput output_path = true
    · rw [if_pos hc] at h
      have key := ProcessFile_keeps fs dirs
        (fun a b => b.output = a.output ∨ b.output.getLast? = some '\n')
        (fun _ => Or.inl rfl) ?_ ?_ ?_ ?_ fuel _ _ _ _ h
      · rcases key with hk | hk
        · exact Or.inl hk
        · exact Or.inr hk
      · intro a b c hab hbc
        rcases hbc with hbc | hbc
        · rw [hbc]; exact hab
        · exact Or.inr hbc
      · intro s line
        exact Or.inr (List.getLast?_concat _)
      · intro s name p k
        exact Or.inl rfl
      · intro s p c _ _
        exact Or.inl rfl
    · rw [if_neg hc] at h
      simp only [Option.some.injEq] at h
      subst h
      exact Or.inl rfl
  · intro recurse fp cd content k st hplain
    rw [scanLines_plain fs dirs recurse fp cd _ k st hplain, renderLines_getlines]

/-- In `Test`: the output ends with a newline; `sources/dir1/b.h` ends with
the line `// text from b.h after include` without a newline, and its lines
are written back as the content followed by a newline. -/
theorem Preprocess_output_ends_with_newline_witness :
    Preprocess testFS 4 "sources/a.cpp".toList "sources/a.in".toList testDirs =
      some (Outcome.returned false,
        ⟨testExpected,
          [ "/work/sources/a.cpp".toList, "/work/sources/dir1/b.h".toList,
            "/work/sources/dir1/subdir/c.h".toList, "/work/sources/include1/std1.h".toList,
            "/work/sources/dir1/d.h".toList, "/work/sources/include2/lib/std2.h".toList ],
          ["unknown include file dummy.txt at file sources/a.cpp at line 8".toList]⟩) ∧
    (testExpected = [] ∨ testExpected.getLast? = some '\n') ∧
    test_b_h.getLast? = some 'e' ∧
    renderLines (getlines test_b_h) = test_b_h ++ ['\n'] :=
  ⟨by decide!,
    (Preprocess_output_ends_with_newline testFS testDirs 4 "sources/a.cpp".toList
      "sources/a.in".toList
      (Outcome.returned false,
        ⟨testExpected,
          [ "/work/sources/a.cpp".toList, "/work/sources/dir1/b.h".toList,
            "/work/sources/dir1/subdir/c.h".toList, "/work/sources/include1/std1.h".toList,
            "/work/sources/dir1/d.h".toList, "/work/sources/include2/lib/std2.h".toList ],
          ["unknown include file dummy.txt at file sources/a.cpp at line 8".toList]⟩)
      (by decide!)).1,
    by decide!, by decide!⟩

/-! ## No file is written twice -/

theorem plainLinesOf_append (a b : List EnteredFile) :
    plainLinesOf (a ++ b) = plainLinesOf a ++ plainLinesOf b := by
  induction a with
  | nil => rfl
  | cons e rest ih => simp [plainLinesOf, ih]

/-- An expansion is, up to the order of the lines, the plain lines of the
lines being scanned followed by the plain lines of the files entered, which
are the files whose canonical paths were added to the Visited Set. -/
theorem expands_perm {fs : FileSystem} {dirs : List Path} {t : Target} {V V' : List Path}
    {out : List Text} (h : Expands fs dirs t V out V') :
    ∃ entered : List EnteredFile,
      (∀ e ∈ entered, fs.canonical e.file_path = some e.canonical_path ∧
        fs.openRead e.file_path = some e.content) ∧
      V' = V ++ entered.map (fun e => e.canonical_path) ∧
      List.Perm out
        ((match t with
          | Target.file _ _ => []
          | Target.lines _ ls => ls.filter (fun l => (include_regex_match l).isNone))
          ++ plainLinesOf entered) := by
  induction h with
  | @visited f cd c V hc hv =>
    exact ⟨[], by simp, by simp, by simp [plainLinesOf]⟩
  | @fresh f cd c V content out V' hc hv ho _ ih =>
    obtain ⟨entered, hall, hV, hperm⟩ := ih
    refine ⟨⟨f, c, content⟩ :: entered, ?_, ?_, ?_⟩
    · intro e he
      rcases List.mem_cons.mp he with rfl | he
      · exact ⟨hc, ho⟩
      · exact hall e he
    · simp [hV]
    · simpa [plainLinesOf, plainLines] using hperm
  | @done cd V =>
    exact ⟨[], by simp, by simp, by simp [plainLinesOf]⟩
  | @plain cd line rest V out V' hm _ ih =>
    obtain ⟨entered, hall, hV, hperm⟩ := ih
    refine ⟨entered, hall, hV, ?_⟩
    simp only [List.filter_cons, hm, Option.isNone_none, if_true, List.cons_append]
    exact List.Perm.cons line hperm
  | @directive cd line rest is_local name target V out₁ V₁ out₂ V₂ hm hr _ _ ih₁ ih₂ =>
    obtain ⟨e₁, hall₁, hV₁, hperm₁⟩ := ih₁
    obtain ⟨e₂, hall₂, hV₂, hperm₂⟩ := ih₂
    refine ⟨e₁ ++ e₂, ?_, ?_, ?_⟩
    · intro e he
      rcases List.mem_append.mp he with he | he
      · exact hall₁ e he
      · exact hall₂ e he
    · simp [hV₂, hV₁]
    · simp only [List.filter_cons, hm, Option.isNone_some, Bool.false_eq_true, if_false,
        plainLinesOf_append]
      simp only [List.nil_append] at hperm₁
      have h₁ := List.Perm.append hperm₁ hperm₂
      refine h₁.trans ?_
      rw [← List.append_assoc, ← List.append_assoc]
      exact List.Perm.append_right _ List.perm_append_comm

theorem getlinesAux_no_newline : ∀ (rest cur : Text), '\n' ∉ cur →
    ∀ l ∈ getlinesAux cur rest, '\n' ∉ l := by
  intro rest
  induction rest with
  | nil =>
    intro cur hcur l hl
    rw [getlinesAux] at hl
    by_cases hc : cur = []
    · rw [if_pos hc] at hl; simp at hl
    · rw [if_neg hc, List.mem_singleton] at hl
      rw [hl]; exact hcur
  | cons c rest ih =>
    intro cur hcur l hl
    rw [getlinesAux] at hl
    by_cases hc : c = '\n'
    · rw [if_pos hc] at hl
      rcases List.mem_cons.mp hl with rfl | hl
      · exact hcur
      · exact ih [] (by simp) l hl
    · rw [if_neg hc] at hl
      exact ih (cur ++ [c]) (by simp [hcur, Ne.symm hc]) l hl

theorem getlinesAux_line : ∀ (l cur r : Text), '\n' ∉ l →
    getlinesAux cur (l ++ '\n' :: r) = (cur ++ l) :: getlinesAux [] r := by
  intro l
  induction l with
  | nil => intro cur r _; simp [getlinesAux]
  | cons a rest ih =>
    intro cur r h
    have ha : a ≠ '\n' := fun e => h (e ▸ List.mem_cons_self _ _)
    rw [List.cons_append, getlinesAux, if_neg ha,
      ih (cur ++ [a]) r (fun e => h (List.mem_cons_of_mem _ e))]
    simp

/-- Reading back a rendering of lines without newline in them gives the
lines. -/
theorem getlines_renderLines : ∀ (out : List Text), (∀ l ∈ out, '\n' ∉ l) →
    getlines (renderLines out) = out := by
  intro out
  induction out with
  | nil => intro _; rfl
  | cons l rest ih =>
    intro h
    have hl := h l (List.mem_cons_self _ _)
    have hrest := ih (fun x hx => h x (List.mem_cons_of_mem _ hx))
    unfold getlines at hrest ⊢
    rw [renderLines, getlinesAux_line l [] _ hl, hrest]
    rfl

/-- The lines of an expansion have no newline in them. -/
theorem expands_no_newline {fs : FileSystem} {dirs : List Path} {t : Target} {V V' : List Path}
    {out : List Text} (h : Expands fs dirs t V out V') :
    (match t with
      | Target.file _ _ => True
      | Target.lines _ ls => ∀ l ∈ ls, '\n' ∉ l) →
    ∀ l ∈ out, '\n' ∉ l := by
  induction h with
  | visited _ _ => intro _ l hl; simp at hl
  | @fresh f cd c V content out V' _ _ _ _ ih =>
    intro _
    exact ih (getlinesAux_no_newline content [] (by simp))
  | done => intro _ l hl; simp at hl
  | plain _ _ ih =>
    intro hls l hl
    rcases List.mem_cons.mp hl with rfl | hl
    · exact hls _ (List.mem_cons_self _ _)
    · exact ih (fun x hx => hls x (List.mem_cons_of_mem _ hx)) l hl
  | directive _ _ _ _ ih₁ ih₂ =>
    intro hls l hl
    rcases List.mem_append.mp hl with hl | hl
    · exact ih₁ trivial l hl
    · exact ih₂ (fun x hx => hls x (List.mem_cons_of_mem _ hx)) l hl

/-- C15: no content is written twice.  When `Preprocess` returns true, the
lines of the output are, as a multiset, the non-directive lines of the files
entered during the run, each file taken once: the canonical paths of these
files are the entries of the final Visited Set, in order, and no path occurs
twice in it. -/
theorem Preprocess_writes_each_file_once (fs : FileSystem) (dirs : List Path) (fuel : Nat)
    (input_path output_path : Path) (st : State)
    (h : Preprocess fs fuel input_path output_path dirs = some (Outcome.returned true, st)) :
    ∃ entered : List EnteredFile,
      st.output = renderLines (getlines st.output) ∧
      st.processed_files = entered.map (fun e => e.canonical_path) ∧
      st.processed_files.Nodup ∧
      (∀ e ∈ entered, fs.canonical e.file_path = some e.canonical_path ∧
        fs.openRead e.file_path = some e.content) ∧
      List.Perm (getlines st.output) (plainLinesOf entered) := by
  unfold Preprocess at h
  by_cases hc : fs.createOutput output_path = true
  · rw [if_pos hc] at h
    obtain ⟨out, hex, hout, _⟩ := ProcessFile_sound fs dirs fuel _ _ _ _ h
    obtain ⟨entered, hall, hV, hperm⟩ := expands_perm hex
    have hn := ProcessFile_nodup fs dirs fuel _ _ _ _ h List.nodup_nil
    have hout' : st.output = renderLines out := by simpa using hout
    have hlines : getlines st.output = out := by
      rw [hout']
      exact getlines_renderLines out (expands_no_newline hex trivial)
    rw [hlines]
    exact ⟨entered, hout', by simpa using hV, hn, hall, by simpa using hperm⟩
  · rw [if_neg hc] at h
    simp at h

/-- On `diamondFS`: `base.h` is included by `l.h` and by `r.h`, and `top.h`
includes itself; the output has the line of `base.h` once and the lines of
`top.h` once. -/
theorem Preprocess_writes_each_file_once_witness :
    Preprocess diamondFS 4 "top.h".toList "top.out".toList [] =
      some (Outcome.returned true,
        ⟨"T1\nB\nL\nR\nT2\n".toList,
          ["/top.h".toList, "/l.h".toList, "/base.h".toList, "/r.h".toList], []⟩) ∧
    getlines "T1\nB\nL\nR\nT2\n".toList =
      ["T1".toList, "B".toList, "L".toList, "R".toList, "T2".toList] ∧
    ∃ entered : List EnteredFile,
      "T1\nB\nL\nR\nT2\n".toList = renderLines (getlines "T1\nB\nL\nR\nT2\n".toList) ∧
      ["/top.h".toList, "/l.h".toList, "/base.h".toList, "/r.h".toList] =
        entered.map (fun e => e.canonical_path) ∧
      ["/top.h".toList, "/l.h".toList, "/base.h".toList, "/r.h".toList].Nodup ∧
      (∀ e ∈ entered, diamondFS.canonical e.file_path = some e.canonical_path ∧
        diamondFS.openRead e.file_path = some e.content) ∧
      List.Perm (getlines "T1\nB\nL\nR\nT2\n".toList) (plainLinesOf entered) :=
  ⟨by decide!, by decide!,
    Preprocess_writes_each_file_once diamondFS [] 4 "top.h".toList "top.out".toList
      ⟨"T1\nB\nL\nR\nT2\n".toList,
        ["/top.h".toList, "/l.h".toList, "/base.h".toList, "/r.h".toList], []⟩
      (by decide!)⟩

/-! ## Recognition of directive lines -/

theorem dropWhile_append_all (p : Char → Bool) : ∀ (w r : Text), (∀ x ∈ w, p x = true) →
    (w ++ r).dropWhile p = r.dropWhile p := by
  intro w
  induction w with
  | nil => intro r _; rfl
  | cons a rest ih =>
    intro r h
    have ha : p a = true := h a (List.mem_cons_self _ _)
    simp only [List.cons_append, List.dropWhile_cons, ha, if_true]
    exact ih r (fun x hx => h x (List.mem_cons_of_mem _ hx))

theorem takeWhile_append_all (p : Char → Bool) : ∀ (w r : Text), (∀ x ∈ w, p x = true) →
    (w ++ r).takeWhile p = w ++ r.takeWhile p := by
  intro w
  induction w with
  | nil => intro r _; rfl
  | cons a rest ih =>
    intro r h
    have ha : p a = true := h a (List.mem_cons_self _ _)
    simp only [List.cons_append, List.takeWhile_cons, ha, if_true]
    rw [ih r (fun x hx => h x (List.mem_cons_of_mem _ hx))]

theorem stripLiteral_append : ∀ (lit r : Text), stripLiteral lit (lit ++ r) = some r := by
  intro lit
  induction lit with
  | nil => intro r; cases r <;> rfl
  | cons a rest ih => intro r; simp [stripLiteral, ih]

theorem isSpace_of_isOpenDelim {o : Char} (h : isOpenDelim o = true) : isSpace o = false := by
  simp only [isOpenDelim, Bool.or_eq_true, decide_eq_true_eq] at h
  rcases h with rfl | rfl <;> decide

theorem isNameChar_of_isCloseDelim {c : Char} (h : isCloseDelim c = true) :
    isNameChar c = false := by
  simp only [isCloseDelim] at h
  simp [isNameChar, h]

/-- The match on a line of the shape of the grammar: it succeeds exactly
when only whitespace follows the closing delimiter, the flag is whether the
opening delimiter is the double quote, the name is the text between the
delimiters. -/
theorem include_regex_match_includeLine (w1 w2 w3 : Text) (o : Char) (n : Text) (c : Char)
    (t : Text) (h1 : isWhitespace w1) (h2 : isWhitespace w2) (h3 : isWhitespace w3)
    (ho : isOpenDelim o = true) (hn : ∀ x ∈ n, isNameChar x = true)
    (hc : isCloseDelim c = true) :
    include_regex_match (includeLine w1 w2 w3 o n c t) =
      if t.dropWhile isSpace = [] then some (decide (o = '"'), n) else none := by
  have hi : "include".toList = ['i', 'n', 'c', 'l', 'u', 'd', 'e'] := by decide
  have e1 : (includeLine w1 w2 w3 o n c t).dropWhile isSpace =
      '#' :: (w2 ++ ("include".toList ++ (w3 ++ o :: (n ++ c :: t)))) := by
    unfold includeLine
    rw [dropWhile_append_all isSpace _ _ h1, List.dropWhile_cons]
    have : isSpace '#' = false := by decide
    simp [this]
  have e2 : (w2 ++ ("include".toList ++ (w3 ++ o :: (n ++ c :: t)))).dropWhile isSpace =
      "include".toList ++ (w3 ++ o :: (n ++ c :: t)) := by
    rw [dropWhile_append_all isSpace _ _ h2, hi]
    have : isSpace 'i' = false := by decide
    simp [List.dropWhile_cons, this]
  have e3 : (w3 ++ o :: (n ++ c :: t)).dropWhile isSpace = o :: (n ++ c :: t) := by
    rw [dropWhile_append_all isSpace _ _ h3, List.dropWhile_cons]
    simp [isSpace_of_isOpenDelim ho]
  have e4 : (n ++ c :: t).dropWhile isNameChar = c :: t := by
    rw [dropWhile_append_all isNameChar _ _ hn, List.dropWhile_cons]
    simp [isNameChar_of_isCloseDelim hc]
  have e5 : (n ++ c :: t).takeWhile isNameChar = n := by
    rw [takeWhile_append_all isNameChar _ _ hn, List.takeWhile_cons]
    simp [isNameChar_of_isCloseDelim hc]
  unfold include_regex_match
  rw [e1]
  simp only [e2, stripLiteral_append, e3, if_pos ho, e4, e5]
  by_cases ht : t.dropWhile isSpace = []
  · simp [ht, hc]
  · simp [ht]

theorem dropWhile_isSpace_of_isWhitespace {w : Text} (h : isWhitespace w) :
    w.dropWhile isSpace = [] := by
  have := dropWhile_append_all isSpace w [] h
  simpa using this

theorem dropWhile_isSpace_ne_nil : ∀ {t : Text}, (∃ x ∈ t, isSpace x = false) →
    t.dropWhile isSpace ≠ [] := by
  intro t
  induction t with
  | nil => intro h; obtain ⟨x, hx, _⟩ := h; simp at hx
  | cons a rest ih =>
    intro h
    rw [List.dropWhile_cons]
    by_cases ha : isSpace a = true
    · rw [if_pos ha]
      obtain ⟨x, hx, hxs⟩ := h
      rcases List.mem_cons.mp hx with rfl | hx
      · rw [ha] at hxs; exact absurd hxs (by simp)
      · exact ih ⟨x, hx, hxs⟩
    · rw [if_neg ha]
      simp

/-- The first character that is not whitespace, in a line with a character
that is not whitespace before its first `#`, is not `#`. -/
theorem dropWhile_isSpace_head_ne_hash : ∀ (p rest : Text), '#' ∉ p →
    (∃ x ∈ p, isSpace x = false) →
    ∃ y r, (p ++ '#' :: rest).dropWhile isSpace = y :: r ∧ y ≠ '#' := by
  intro p
  induction p with
  | nil => intro rest _ h; obtain ⟨x, hx, _⟩ := h; simp at hx
  | cons a p' ih =>
    intro rest hp h
    have ha : a ≠ '#' := fun e => hp (e ▸ List.mem_cons_self _ _)
    have hp' : '#' ∉ p' := fun e => hp (List.mem_cons_of_mem _ e)
    rw [List.cons_append, List.dropWhile_cons]
    by_cases hs : isSpace a = true
    · rw [if_pos hs]
      obtain ⟨x, hx, hxs⟩ := h
      rcases List.mem_cons.mp hx with rfl | hx
      · rw [hs] at hxs; exact absurd hxs (by simp)
      · exact ih rest hp' ⟨x, hx, hxs⟩
    · rw [if_neg hs]
      exact ⟨a, _, rfl, ha⟩

/-- A line whose first character that is not whitespace is not `#` does not
match. -/
theorem include_regex_match_of_head_ne_hash {line r : Text} {y : Char}
    (h : line.dropWhile isSpace = y :: r) (hy : y ≠ '#') : include_regex_match line = none := by
  unfold include_regex_match
  split
  · rename_i r1 heq
    rw [h] at heq
    simp only [List.cons.injEq] at heq
    exact absurd heq.1 hy
  · rfl

theorem stripLiteral_some : ∀ (lit s r : Text), stripLiteral lit s = some r → s = lit ++ r := by
  intro lit
  induction lit with
  | nil =>
    intro s r h
    cases s <;> simp [stripLiteral] at h <;> simp [h]
  | cons a rest ih =>
    intro s r h
    cases s with
    | nil => simp [stripLiteral] at h
    | cons c cs =>
      rw [stripLiteral] at h
      by_cases hac : a = c
      · rw [if_pos hac] at h
        rw [hac, ih cs r h]
        rfl
      · rw [if_neg hac] at h
        simp at h

/-- A line that matches has, as a whole, the shape of the grammar: the match
is anchored at both ends of the line. -/
theorem include_regex_match_shape {line name : Text} {b : Bool}
    (h : include_regex_match line = some (b, name)) :
    ∃ (w1 w2 w3 w4 : Text) (o c : Char), line = includeLine w1 w2 w3 o name c w4 ∧
      isWhitespace w1 ∧ isWhitespace w2 ∧ isWhitespace w3 ∧ isWhitespace w4 ∧
      isOpenDelim o = true ∧ (∀ x ∈ name, isNameChar x = true) ∧ isCloseDelim c = true ∧
      b = decide (o = '"') := by
  unfold include_regex_match at h
  split at h
  · rename_i r1 h1
    split at h
    · rename_i r2 h2
      split at h
      · rename_i o r3 h3
        split at h
        · rename_i ho
          split at h
          · rename_i c r4 h4
            split at h
            · rename_i hcond
              simp only [Option.some.injEq, Prod.mk.injEq] at h
              obtain ⟨hb, hname⟩ := h
              simp only [Bool.and_eq_true, decide_eq_true_eq] at hcond
              have e1 := List.takeWhile_append_dropWhile isSpace line
              have e2 := List.takeWhile_append_dropWhile isSpace r1
              have e3 := List.takeWhile_append_dropWhile isSpace r2
              have e4 := List.takeWhile_append_dropWhile isNameChar r3
              rw [h1] at e1
              rw [stripLiteral_some _ _ _ h2] at e2
              rw [h3] at e3
              rw [h4, hname] at e4
              refine ⟨line.takeWhile isSpace, r1.takeWhile isSpace, r2.takeWhile isSpace, r4,
                o, c, ?_, fun x hx => List.mem_takeWhile_imp hx,
                fun x hx => List.mem_takeWhile_imp hx, fun x hx => List.mem_takeWhile_imp hx,
                List.dropWhile_eq_nil_iff.mp hcond.2, ho, ?_, hcond.1, hb.symm⟩
              · unfold includeLine
                rw [e4, e3, e2, e1]
              · intro x hx
                rw [← hname] at hx
                exact List.mem_takeWhile_imp hx
            · simp at h
          · simp at h
        · simp at h
      · simp at h
    · simp at h
  · simp at h

theorem not_delim_of_isSpace {x : Char} (h : isSpace x = true) :
    isOpenDelim x = false ∧ isCloseDelim x = false := by
  simp only [isSpace, Bool.or_eq_true, decide_eq_true_eq] at h
  rcases h with ((((rfl | rfl) | rfl) | rfl) | rfl) | rfl <;> decide

/-- No delimiter occurs before the opening delimiter of a line of the
grammar. -/
theorem not_delim_before_open {w1 w2 w3 : Text} (h1 : isWhitespace w1) (h2 : isWhitespace w2)
    (h3 : isWhitespace w3) :
    ∀ x ∈ w1 ++ '#' :: (w2 ++ ("include".toList ++ w3)),
      isOpenDelim x = false ∧ isCloseDelim x = false := by
  intro x hx
  rcases List.mem_append.mp hx with hx | hx
  · exact not_delim_of_isSpace (h1 x hx)
  · rcases List.mem_cons.mp hx with rfl | hx
    · decide
    · rcases List.mem_append.mp hx with hx | hx
      · exact not_delim_of_isSpace (h2 x hx)
      · rcases List.mem_append.mp hx with hx | hx
        · have hi : "include".toList = ['i', 'n', 'c', 'l', 'u', 'd', 'e'] := by decide
          rw [hi] at hx
          simp only [List.mem_cons, List.mem_singleton, List.not_mem_nil, or_false] at hx
          rcases hx with rfl | rfl | rfl | rfl | rfl | rfl | rfl <;> decide
        · exact not_delim_of_isSpace (h3 x hx)

/-- A line in which a closing delimiter that comes after an opening
delimiter is followed by a character that is not whitespace does not
match. -/
theorem include_regex_match_of_text_after_close (B t : Text) (c : Char)
    (hB : ∃ o ∈ B, isOpenDelim o = true) (hc : isCloseDelim c = true)
    (ht : ∃ x ∈ t, isSpace x = false) : include_regex_match (B ++ c :: t) = none := by
  cases hm : include_regex_match (B ++ c :: t) with
  | none => rfl
  | some q =>
    exfalso
    obtain ⟨b, name⟩ := q
    obtain ⟨w1, w2, w3, w4, o', c', hline, h1, h2, h3, h4, ho', hname, hc', _⟩ :=
      include_regex_match_shape hm
    obtain ⟨o, hoB, ho⟩ := hB
    obtain ⟨x, hxt, hx⟩ := ht
    have hA := not_delim_before_open h1 h2 h3
    have hline' : B ++ c :: t =
        (w1 ++ '#' :: (w2 ++ ("include".toList ++ w3))) ++ o' :: (name ++ c' :: w4) := by
      rw [hline]
      simp [includeLine]
    rcases List.append_eq_append_iff.mp hline' with ⟨a', hA', _⟩ | ⟨z, hBz, hz⟩
    · have := (hA o (by rw [hA']; exact List.mem_append_left _ hoB)).1
      rw [ho] at this
      exact absurd this (by simp)
    · rcases List.cons_eq_append_iff.mp hz with ⟨rfl, _⟩ | ⟨z', rfl, hz'⟩
      · rw [List.append_nil] at hBz
        have := (hA o (hBz ▸ hoB)).1
        rw [ho] at this
        exact absurd this (by simp)
      · rcases List.append_eq_append_iff.mp hz' with ⟨a', _, hw⟩ | ⟨y, hn, hy⟩
        · have hxw : x ∈ w4 := by
            rcases List.cons_eq_append_iff.mp hw with ⟨_, hw'⟩ | ⟨a'', _, hw'⟩
            · simp only [List.cons.injEq] at hw'
              rw [← hw'.2]; exact hxt
            · rw [hw']
              exact List.mem_append_right _ (List.mem_cons_of_mem _ hxt)
          exact absurd (h4 x hxw) (by simp [hx])
        · rcases List.cons_eq_append_iff.mp hy with ⟨_, hy'⟩ | ⟨y', rfl, _⟩
          · simp only [List.cons.injEq] at hy'
            exact absurd (h4 x (hy'.2 ▸ hxt)) (by simp [hx])
          · have := hname c (by rw [hn]; simp)
            rw [isNameChar_of_isCloseDelim hc] at this
            exact absurd this (by simp)

/-! ## The claims on directive recognition and on unreadable files -/

/-- C11: for whitespace strings `w1`, `w2`, `w3`, `w4` (possibly empty) and a
name `n` with neither `>` nor `"` in it, the line `w1 # w2 include w3 "n" w4`
is a quoted include with name `n`, and the line `w1 # w2 include w3 <n> w4`
is an angle include with name `n`. -/
theorem include_directive_recognised (w1 w2 w3 w4 n : Text)
    (h1 : isWhitespace w1) (h2 : isWhitespace w2) (h3 : isWhitespace w3) (h4 : isWhitespace w4)
    (hn : ∀ x ∈ n, x ≠ '>' ∧ x ≠ '"') :
    include_regex_match (includeLine w1 w2 w3 '"' n '"' w4) = some (true, n) ∧
    include_regex_match (includeLine w1 w2 w3 '<' n '>' w4) = some (false, n) := by
  have hn' : ∀ x ∈ n, isNameChar x = true := by
    intro x hx
    simp [isNameChar, (hn x hx).1, (hn x hx).2]
  have ht := dropWhile_isSpace_of_isWhitespace h4
  constructor
  · rw [include_regex_match_includeLine w1 w2 w3 '"' n '"' w4 h1 h2 h3 (by decide) hn'
      (by decide), if_pos ht]
    rfl
  · rw [include_regex_match_includeLine w1 w2 w3 '<' n '>' w4 h1 h2 h3 (by decide) hn'
      (by decide), if_pos ht]
    rfl

/-- In `Test`: the line `#   include<dummy.txt>` is an angle include with
name `dummy.txt`. -/
theorem include_directive_recognised_witness :
    includeLine [] "   ".toList [] '<' "dummy.txt".toList '>' [] =
      "#   include<dummy.txt>".toList ∧
    include_regex_match (includeLine [] "   ".toList [] '"' "dummy.txt".toList '"' []) =
      some (true, "dummy.txt".toList) ∧
    include_regex_match (includeLine [] "   ".toList [] '<' "dummy.txt".toList '>' []) =
      some (false, "dummy.txt".toList) :=
  ⟨by decide!,
    include_directive_recognised [] "   ".toList [] [] "dummy.txt".toList
      (by unfold isWhitespace; decide!) (by unfold isWhitespace; decide!)
      (by unfold isWhitespace; decide!) (by unfold isWhitespace; decide!) (by decide!)⟩

/-- C12, at the failing input: lines whose delimiters are of different kinds
match `include_regex`; `#include <x.h"` is taken as an angle include of
`x.h` and `#include "x.h>` as a quoted include of `x.h`.  On `mismatchFS` the
first line of `src/m.cpp` is replaced by the content of `inc/x.h` instead of
being copied to the output.  In general a line of the grammar with any
opening and any closing delimiter matches. -/
theorem mismatched_delimiters_match :
    include_regex_match "#include <x.h\"".toList = some (false, "x.h".toList) ∧
    include_regex_match "#include \"x.h>".toList = some (true, "x.h".toList) ∧
    Preprocess mismatchFS 2 "src/m.cpp".toList "src/m.out".toList ["inc".toList] =
      some (Outcome.returned true,
        ⟨"global\nM\n".toList, ["/src/m.cpp".toList, "/inc/x.h".toList], []⟩) ∧
    (∀ (w1 w2 w3 w4 n : Text) (o c : Char), isWhitespace w1 → isWhitespace w2 →
      isWhitespace w3 → isWhitespace w4 → (∀ x ∈ n, isNameChar x = true) →
      isOpenDelim o = true → isCloseDelim c = true →
      include_regex_match (includeLine w1 w2 w3 o n c w4) = some (decide (o = '"'), n)) := by
  refine ⟨by decide!, by decide!, by decide!, ?_⟩
  intro w1 w2 w3 w4 n o c h1 h2 h3 h4 hn ho hc
  rw [include_regex_match_includeLine w1 w2 w3 o n c w4 h1 h2 h3 ho hn hc,
    if_pos (dropWhile_isSpace_of_isWhitespace h4)]

/-- C13, as stated, fails: the line `#include <#include <a.h>` consists of
the include-like text `#include <a.h>` with the characters `#include <`
before its `#`, and it matches, with name `#include <a.h`: on `nestedFS` the
loop attempts the resolution of that name and writes a diagnostic instead of
copying the line. -/
theorem nested_include_text_matches :
    "#include <#include <a.h>".toList = "#include <".toList ++ "#include <a.h>".toList ∧
    include_regex_match "#include <a.h>".toList = some (false, "a.h".toList) ∧
    (∃ x ∈ "#include <".toList, isSpace x = false) ∧
    include_regex_match "#include <#include <a.h>".toList =
      some (false, "#include <a.h".toList) ∧
    Preprocess nestedFS 1 "n.cpp".toList "n.out".toList [] =
      some (Outcome.returned false,
        ⟨[], ["/n.cpp".toList],
          ["unknown include file #include <a.h at file n.cpp at line 1".toList]⟩) := by
  decide!

/-- C13, amended: a line with a character that is not whitespace after the
closing delimiter of an include-like text (wherever that text stands in the
line), or with a character that is not whitespace before the first `#` of
the line, does not match: the loop attempts no resolution for it and appends
the line and a newline to the output. -/
theorem non_anchored_line_is_plain (line : Text)
    (h : (∃ (p w1 w2 w3 n t : Text) (o c : Char), line = p ++ includeLine w1 w2 w3 o n c t ∧
            isOpenDelim o = true ∧ isCloseDelim c = true ∧ ∃ x ∈ t, isSpace x = false) ∨
         (∃ p rest : Text, line = p ++ '#' :: rest ∧ '#' ∉ p ∧ ∃ x ∈ p, isSpace x = false)) :
    include_regex_match line = none ∧
    ∀ (fs : FileSystem) (dirs : List Path)
      (recurse : Path → Path → State → Option (Outcome × State)) (file_path current_dir : Path)
      (rest : List Text) (k : Int) (st : State),
      scanLines fs dirs recurse file_path current_dir (line :: rest) k st =
        scanLines fs dirs recurse file_path current_dir rest (wrapInt32 (k + 1))
          { st with output := st.output ++ line ++ ['\n'] } := by
  have hnone : include_regex_match line = none := by
    rcases h with ⟨p, w1, w2, w3, n, t, o, c, rfl, ho, hc, ht⟩ | ⟨p, rest, rfl, hp, hx⟩
    · have e : p ++ includeLine w1 w2 w3 o n c t =
          (p ++ w1 ++ '#' :: (w2 ++ ("include".toList ++ (w3 ++ o :: n)))) ++ c :: t := by
        simp [includeLine]
      rw [e]
      exact include_regex_match_of_text_after_close _ t c ⟨o, by simp, ho⟩ hc ht
    · obtain ⟨y, r, hy, hne⟩ := dropWhile_isSpace_head_ne_hash p rest hp hx
      exact include_regex_match_of_head_ne_hash hy hne
  refine ⟨hnone, ?_⟩
  intro fs dirs recurse file_path current_dir rest k st
  rw [scanLines, hnone]
  rfl

/-- The lines `#include "a.h" // note` and `int x; #include "a.h"` are
plain content. -/
theorem non_anchored_line_is_plain_witness :
    include_regex_match "#include \"a.h\" // note".toList = none ∧
    include_regex_match "int x; #include \"a.h\"".toList = none :=
  ⟨(non_anchored_line_is_plain "#include \"a.h\" // note".toList
      (Or.inl ⟨[], [], [], " ".toList, "a.h".toList, " // note".toList, '"', '"', by decide!,
        by decide!, by decide!, '/', by decide!, by decide!⟩)).1,
    (non_anchored_line_is_plain "int x; #include \"a.h\"".toList
      (Or.inr ⟨"int x; ".toList, "include \"a.h\"".toList, by decide!, by decide!,
        'i', by decide!, by decide!⟩)).1⟩

/-- C14, at the failing input: the root path `src/missing.cpp` names no
file of `shadowFS`; `fs::canonical` throws before the stream is opened, and
`Preprocess` is left by the exception instead of returning false.  In
general, with the output created: a root that `fs::canonical` rejects gives
the exception, whereas a file that canonicalizes and cannot be opened gives
false, with no diagnostic and nothing written. -/
theorem Preprocess_missing_root_throws :
    shadowFS.pathExists "src/missing.cpp".toList = false ∧
    shadowFS.openRead "src/missing.cpp".toList = none ∧
    Preprocess shadowFS 1 "src/missing.cpp".toList "src/missing.out".toList [] =
      some (Outcome.threw, ⟨[], [], []⟩) ∧
    (∀ (fs : FileSystem) (dirs : List Path) (fuel : Nat) (input_path output_path : Path),
      fs.createOutput output_path = true → fs.canonical input_path = none →
      Preprocess fs (fuel + 1) input_path output_path dirs =
        some (Outcome.threw, ⟨[], [], []⟩)) ∧
    (∀ (fs : FileSystem) (dirs : List Path) (fuel : Nat) (file_path current_dir c : Path)
      (st : State),
      fs.canonical file_path = some c → c ∉ st.processed_files →
      fs.openRead file_path = none →
      ProcessFile fs dirs (fuel + 1) file_path current_dir st =
        some (Outcome.returned false,
          { st with processed_files := st.processed_files ++ [c] })) := by
  refine ⟨by decide!, by decide!, by decide!, ?_, ?_⟩
  · intro fs dirs fuel input_path output_path hcreate hc
    simp [Preprocess, hcreate, ProcessFile, hc]
  · intro fs dirs fuel file_path current_dir c st hc hv ho
    simp [ProcessFile, hc, hv, ho]

end CppPreprocessor
